import Mathlib

/-!
Shallow embedding of the `freeform` 2D parametric constraint-solver core
(single-header C library `freeform.h`), together with proofs checking the
natural-language specification against it.

Modelling conventions:
* C `double` is modelled by `ℚ`; the transcendental functions from `math.h`
  (`sin`, `cos`, `asin`, `acos`, `sqrt`) are abstract functions supplied by a
  `MathOps` record, since the C code treats them as black boxes.  Division by
  zero, which yields an IEEE special value in C, is Lean's `x / 0 = 0`; no
  claim below depends on the numeric value of a division by zero.
* `uint16_t` / `uint32_t` fields are `ℕ`, with the 16-bit capacity clamp and
  the 32-bit generation wrap written out as explicit arithmetic at exactly the
  places the C code performs them.
* Heap failure (dereferencing the NULL result of a failed table lookup) and
  the `ff_ERROR` abort in `expr_derivative`'s `default` branch are modelled by
  `Option`: `none` means the C program crashes or aborts.
* Interior pointers (`ff_Constraint*` / `ff_Parameter*` stored in the scratch
  arrays `tmp_contraints` / `tmp_params`) are modelled as slot indices into
  the owning table.
-/

set_option autoImplicit false

/-- Sentinel index `FF_INVALID_INDEX` (0xFFFF). -/
def FF_INVALID_INDEX : ℕ := 65535

/-- Modulus of a `uint32_t` generation counter. -/
def GEN_MOD : ℕ := 4294967296

/-- Generational handle `ff_GeneralHandle`: `(idx : uint16_t, gen : uint32_t)`. -/
structure ff_GeneralHandle where
  idx : ℕ
  gen : ℕ
  deriving DecidableEq, Repr

/-- The reserved invalid handle `{ FF_INVALID_INDEX, 0u }`. -/
def ff_INVALIDHANDLE : ff_GeneralHandle := ⟨FF_INVALID_INDEX, 0⟩

/-- Handle equality `ffGenHandle_Equals`: structural on `(gen, idx)`. -/
def ffGenHandle_Equals (a b : ff_GeneralHandle) : Bool :=
  a.gen == b.gen && a.idx == b.idx

/-- Expression node `ff_Expr`, one constructor per `ff_OperatorType`.  The
children-owning pointers `a`, `b` become constructor arguments; the payload
union becomes the per-constructor payload. -/
inductive ff_Expr : Type where
  | const (value : ℚ)
  | param (param_H : ff_GeneralHandle)
  | extr_param (a : ff_Expr)
  | param_idx (idx : ℕ)
  | entity_idx (idx : ℕ)
  | point_x (idx : ℕ)
  | point_y (idx : ℕ)
  | circle_r (idx : ℕ)
  | circle_c (idx : ℕ)
  | line_p1 (idx : ℕ)
  | line_p2 (idx : ℕ)
  | add (a b : ff_Expr)
  | sub (a b : ff_Expr)
  | mul (a b : ff_Expr)
  | div (a b : ff_Expr)
  | sin (a : ff_Expr)
  | cos (a : ff_Expr)
  | asin (a : ff_Expr)
  | acos (a : ff_Expr)
  | sqrt (a : ff_Expr)
  | sqr (a : ff_Expr)
  deriving DecidableEq, Repr

/-- Abstract interpretations of the `math.h` functions used by
`expr_evaluate`; the C code links against libm, so they are parameters of the
model. -/
structure MathOps where
  sin : ℚ → ℚ
  cos : ℚ → ℚ
  asin : ℚ → ℚ
  acos : ℚ → ℚ
  sqrt : ℚ → ℚ

/-- Slot of the generic generational table (`PREFIX##__slot`). -/
structure ff_slot (α : Type) where
  gen : ℕ
  next_free : ℕ
  alive : Bool
  payload : α
  deriving DecidableEq, Repr

/-- Generic generational table (`PREFIX##__table`).  `cap` is the stored
`uint16_t` capacity field; in every state the C code reaches, `cap` equals
`slots.length`. -/
structure ff_table (α : Type) where
  slots : List (ff_slot α)
  cap : ℕ
  alive_count : ℕ
  free_head : ℕ
  deriving DecidableEq, Repr

/-- `PREFIX##TBL__grow`: append `add` slots, clamping the new capacity to
65535 (`FF__CLAMP_CAP_16`); newly added slots get generation 1, dead, and are
linked into the free list with the last new slot pointing at the old
`free_head`.  The OOM branch of `realloc` is not modelled (allocation always
succeeds). -/
def ffTBL_grow {α : Type} (dflt : α) (t : ff_table α) (add : ℕ) : ff_table α :=
  if add = 0 then t else
  let new_cap32 := t.cap + add
  let new_cap := if new_cap32 > 65535 then 65535 else new_cap32
  if new_cap ≤ t.cap then t else
  let fresh : List (ff_slot α) := (List.range (new_cap - t.cap)).map (fun k =>
    { gen := 1
      alive := false
      next_free := if t.cap + k = new_cap - 1 then t.free_head else t.cap + k + 1
      payload := dflt })
  { slots := t.slots ++ fresh
    cap := new_cap
    alive_count := t.alive_count
    free_head := t.cap }

/-- `PREFIX##TBL_init`. -/
def ffTBL_init {α : Type} (dflt : α) (initial_cap : ℕ) : ff_table α :=
  let t : ff_table α := { slots := [], cap := 0, alive_count := 0, free_head := FF_INVALID_INDEX }
  if initial_cap ≠ 0 then ffTBL_grow dflt t initial_cap else t

/-- `PREFIX##TBL_create`: pop the free-list head, growing geometrically first
when the free list is empty; returns `(new table, handle)`.  A free-list head
that does not point at an existing slot is impossible in states the C code
reaches (it would be heap corruption); the model returns the invalid handle
there. -/
def ffTBL_create_pop {α : Type} (t : ff_table α) (init : α) :
    ff_table α × ff_GeneralHandle :=
  if t.free_head = FF_INVALID_INDEX then (t, ff_INVALIDHANDLE)
  else
    match t.slots[t.free_head]? with
    | none => (t, ff_INVALIDHANDLE)
    | some s =>
      ({ t with
          slots := t.slots.set t.free_head { s with alive := true, payload := init }
          free_head := s.next_free
          alive_count := t.alive_count + 1 },
       ⟨t.free_head, s.gen⟩)

/-- `PREFIX##TBL_create`, first half: grow geometrically when the free list
is empty, then hand over to `ffTBL_create_pop` (the straight-line rest of the
same C function). -/
def ffTBL_create {α : Type} (dflt : α) (t : ff_table α) (init : α) :
    ff_table α × ff_GeneralHandle :=
  let t :=
    if t.free_head = FF_INVALID_INDEX then
      let add := if t.cap < 64 then 64 else t.cap / 2
      let add := if add = 0 then 64 else add
      ffTBL_grow dflt t add
    else t
  ffTBL_create_pop t init

/-- `PREFIX##TBL__valid`: `idx != FF_INVALID_INDEX && idx < cap`. -/
def ffTBL_valid {α : Type} (t : ff_table α) (h : ff_GeneralHandle) : Bool :=
  h.idx != FF_INVALID_INDEX && h.idx < t.cap

/-- `PREFIX##TBL_alive`: the handle matches a live slot. -/
def ffTBL_alive {α : Type} (t : ff_table α) (h : ff_GeneralHandle) : Bool :=
  if !ffTBL_valid t h then false
  else
    match t.slots[h.idx]? with
    | none => false
    | some s => s.alive && s.gen == h.gen

/-- `PREFIX##TBL_get` / `PREFIX##TBL_get_const`: NULL on a non-matching
handle, modelled as `none`. -/
def ffTBL_get {α : Type} (t : ff_table α) (h : ff_GeneralHandle) : Option α :=
  if !ffTBL_alive t h then none
  else (t.slots[h.idx]?).map (fun s => s.payload)

/-- `PREFIX##TBL_get_const` is the same lookup as `ffTBL_get`. -/
def ffTBL_get_const {α : Type} (t : ff_table α) (h : ff_GeneralHandle) : Option α :=
  ffTBL_get t h

/-- `PREFIX##TBL_destroy`: mark dead, bump the `uint32_t` generation (with
wraparound), push the slot on the free list. -/
def ffTBL_destroy {α : Type} (t : ff_table α) (h : ff_GeneralHandle) :
    ff_table α × Bool :=
  if !ffTBL_alive t h then (t, false)
  else
    match t.slots[h.idx]? with
    | none => (t, false)
    | some s =>
      ({ t with
          slots := t.slots.set h.idx
            { s with alive := false, gen := (s.gen + 1) % GEN_MOD, next_free := t.free_head }
          free_head := h.idx
          alive_count := if t.alive_count ≠ 0 then t.alive_count - 1 else t.alive_count },
       true)

/-- Parameter table payload `ff_Parameter` (flattening `def.v`; the C field
`def` is a Lean keyword, hence `v` is lifted to the top). -/
structure ff_Parameter where
  v : ℚ
  deriving DecidableEq, Repr

/-- `expr_evaluate(expr, t)`: post-order evaluation against the parameter
table.  The `OperatorType_PARAM` case of the C code reads
`ff_paramTBL_get_const(t, h)->def.v` with no NULL check, so a dead handle
dereferences NULL: modelled as `none`.  Operator kinds not listed in the C
switch (`PARAM_IDX` … `LINE_P2`) fall through the switch to `return 0.0`. -/
def expr_evaluate (ops : MathOps) : ff_Expr → ff_table ff_Parameter → Option ℚ
  | .const v, _ => some v
  | .param h, t =>
    match ffTBL_get_const t h with
    | some p => some p.v
    | none => none
  | .extr_param a, t => expr_evaluate ops a t
  | .add a b, t => do
    let x ← expr_evaluate ops a t
    let y ← expr_evaluate ops b t
    pure (x + y)
  | .sub a b, t => do
    let x ← expr_evaluate ops a t
    let y ← expr_evaluate ops b t
    pure (x - y)
  | .mul a b, t => do
    let x ← expr_evaluate ops a t
    let y ← expr_evaluate ops b t
    pure (x * y)
  | .div a b, t => do
    let x ← expr_evaluate ops a t
    let y ← expr_evaluate ops b t
    pure (x / y)
  | .sin a, t => (expr_evaluate ops a t).map ops.sin
  | .cos a, t => (expr_evaluate ops a t).map ops.cos
  | .asin a, t => (expr_evaluate ops a t).map ops.asin
  | .acos a, t => (expr_evaluate ops a t).map ops.acos
  | .sqrt a, t => (expr_evaluate ops a t).map ops.sqrt
  | .sqr a, t => (expr_evaluate ops a t).map (fun v => v * v)
  | _, _ => some 0

/-- The `TRY_EXTR_PARAM` macro: wrap a reused original subtree in an
`EXTR_PARAM` node when `protect_params` is set, otherwise reuse it raw. -/
def TRY_EXTR_PARAM (protect_params : Bool) (e : ff_Expr) : ff_Expr :=
  if protect_params then .extr_param e else e

/-- `expr_derivative(expr, indp_param, protect_params)`.  The `default`
branch of the C switch (`PARAM_IDX` … `LINE_P2`) calls `ff_ERROR` and aborts
the process: modelled as `none`.  Note that the `SIN` and `COS` cases reuse
the child `expr->a` without `TRY_EXTR_PARAM`, exactly as the C code does. -/
def expr_derivative : ff_Expr → ff_GeneralHandle → Bool → Option ff_Expr
  | .const _, _, _ => some (.const 0)
  | .param h, p, _ =>
    some (if ffGenHandle_Equals h p then .const 1 else .const 0)
  | .extr_param a, p, pr => expr_derivative a p pr
  | .add a b, p, pr => do
    pure (.add (← expr_derivative a p pr) (← expr_derivative b p pr))
  | .sub a b, p, pr => do
    pure (.sub (← expr_derivative a p pr) (← expr_derivative b p pr))
  | .mul a b, p, pr => do
    let da ← expr_derivative a p pr
    let db ← expr_derivative b p pr
    pure (.add (.mul da (TRY_EXTR_PARAM pr b)) (.mul (TRY_EXTR_PARAM pr a) db))
  | .div a b, p, pr => do
    let da ← expr_derivative a p pr
    let db ← expr_derivative b p pr
    pure (.div
      (.sub (.mul da (TRY_EXTR_PARAM pr b)) (.mul (TRY_EXTR_PARAM pr a) db))
      (.mul (TRY_EXTR_PARAM pr b) (TRY_EXTR_PARAM pr b)))
  | .sin a, p, pr => do
    pure (.mul (← expr_derivative a p pr) (.cos a))
  | .cos a, p, pr => do
    pure (.mul (.mul (.const (-1)) (.sin a)) (← expr_derivative a p pr))
  | .asin a, p, pr => do
    pure (.div (← expr_derivative a p pr)
      (.sqrt (.sub (.const 1) (.sqr (TRY_EXTR_PARAM pr a)))))
  | .acos a, p, pr => do
    pure (.div (.mul (.const (-1)) (← expr_derivative a p pr))
      (.sqrt (.sub (.const 1) (.sqr (TRY_EXTR_PARAM pr a)))))
  | .sqrt a, p, pr => do
    pure (.div (← expr_derivative a p pr)
      (.mul (.const 2) (.sqrt (TRY_EXTR_PARAM pr a))))
  | .sqr a, p, pr => do
    pure (.mul (.const 2) (.mul (TRY_EXTR_PARAM pr a) (← expr_derivative a p pr)))
  | _, _, _ => none

/-- Expression kinds on which `expr_derivative` is defined (everything except
the indexed operator kinds, whose derivative aborts via `ff_ERROR`). -/
def SupportedExpr : ff_Expr → Bool
  | .const _ => true
  | .param _ => true
  | .extr_param a => SupportedExpr a
  | .add a b => SupportedExpr a && SupportedExpr b
  | .sub a b => SupportedExpr a && SupportedExpr b
  | .mul a b => SupportedExpr a && SupportedExpr b
  | .div a b => SupportedExpr a && SupportedExpr b
  | .sin a => SupportedExpr a
  | .cos a => SupportedExpr a
  | .asin a => SupportedExpr a
  | .acos a => SupportedExpr a
  | .sqrt a => SupportedExpr a
  | .sqr a => SupportedExpr a
  | _ => false

/-- Derivative-tree node instrumented for heap ownership.  A `shared e` node
stands for a raw pointer into the ORIGINAL expression tree (the C code passing
`expr->a` / `expr->b` into the derivative it builds); every other constructor
is a freshly `malloc`ed node.  `expr_free` recurses through fresh nodes, stops
at an `extr_param` wrapper, and, on reaching a `shared` node, frees nodes
owned by the original equation. -/
inductive MExpr : Type where
  | const (value : ℚ)
  | shared (e : ff_Expr)
  | extr_param (a : MExpr)
  | add (a b : MExpr)
  | sub (a b : MExpr)
  | mul (a b : MExpr)
  | div (a b : MExpr)
  | sin (a : MExpr)
  | cos (a : MExpr)
  | sqrt (a : MExpr)
  | sqr (a : MExpr)
  deriving DecidableEq, Repr

/-- `TRY_EXTR_PARAM` at the instrumented type: the reused subtree is a raw
pointer into the original, wrapped iff `protect_params`. -/
def TRY_EXTR_PARAM_M (protect_params : Bool) (e : ff_Expr) : MExpr :=
  if protect_params then .extr_param (.shared e) else .shared e

/-- `expr_derivative` instrumented with `shared` markers at every site where
the C code stores a pointer to a subtree of the input expression inside the
derivative tree it returns.  Same control flow as `expr_derivative`. -/
def expr_derivative_marked : ff_Expr → ff_GeneralHandle → Bool → Option MExpr
  | .const _, _, _ => some (.const 0)
  | .param h, p, _ =>
    some (if ffGenHandle_Equals h p then .const 1 else .const 0)
  | .extr_param a, p, pr => expr_derivative_marked a p pr
  | .add a b, p, pr => do
    pure (.add (← expr_derivative_marked a p pr) (← expr_derivative_marked b p pr))
  | .sub a b, p, pr => do
    pure (.sub (← expr_derivative_marked a p pr) (← expr_derivative_marked b p pr))
  | .mul a b, p, pr => do
    let da ← expr_derivative_marked a p pr
    let db ← expr_derivative_marked b p pr
    pure (.add (.mul da (TRY_EXTR_PARAM_M pr b)) (.mul (TRY_EXTR_PARAM_M pr a) db))
  | .div a b, p, pr => do
    let da ← expr_derivative_marked a p pr
    let db ← expr_derivative_marked b p pr
    pure (.div
      (.sub (.mul da (TRY_EXTR_PARAM_M pr b)) (.mul (TRY_EXTR_PARAM_M pr a) db))
      (.mul (TRY_EXTR_PARAM_M pr b) (TRY_EXTR_PARAM_M pr b)))
  | .sin a, p, pr => do
    pure (.mul (← expr_derivative_marked a p pr) (.cos (.shared a)))
  | .cos a, p, pr => do
    pure (.mul (.mul (.const (-1)) (.sin (.shared a))) (← expr_derivative_marked a p pr))
  | .asin a, p, pr => do
    pure (.div (← expr_derivative_marked a p pr)
      (.sqrt (.sub (.const 1) (.sqr (TRY_EXTR_PARAM_M pr a)))))
  | .acos a, p, pr => do
    pure (.div (.mul (.const (-1)) (← expr_derivative_marked a p pr))
      (.sqrt (.sub (.const 1) (.sqr (TRY_EXTR_PARAM_M pr a)))))
  | .sqrt a, p, pr => do
    pure (.div (← expr_derivative_marked a p pr)
      (.mul (.const 2) (.sqrt (TRY_EXTR_PARAM_M pr a))))
  | .sqr a, p, pr => do
    pure (.mul (.const 2) (.mul (TRY_EXTR_PARAM_M pr a) (← expr_derivative_marked a p pr)))
  | _, _, _ => none

/-- Does `expr_free`, run on this (instrumented) derivative tree, reach and
free a node owned by the original expression?  `expr_free` recurses into the
children of every node except an `EXTR_PARAM` wrapper, where it frees the
wrapper only; reaching a `shared` node therefore frees original nodes. -/
def expr_free_touches_original : MExpr → Bool
  | .const _ => false
  | .shared _ => true
  | .extr_param _ => false
  | .add a b => expr_free_touches_original a || expr_free_touches_original b
  | .sub a b => expr_free_touches_original a || expr_free_touches_original b
  | .mul a b => expr_free_touches_original a || expr_free_touches_original b
  | .div a b => expr_free_touches_original a || expr_free_touches_original b
  | .sin a => expr_free_touches_original a
  | .cos a => expr_free_touches_original a
  | .sqrt a => expr_free_touches_original a
  | .sqr a => expr_free_touches_original a

/-- Entity kind `ff_EntityType`. -/
inductive ff_EntityType : Type where
  | point
  | line
  | circle
  | arc
  deriving DecidableEq, Repr

/-- Entity definition `ff_EntityDef`.  The C `data` union is flattened into
one field per union member (the claims under verification never rely on the
members aliasing each other in memory). -/
structure ff_EntityDef where
  type : ff_EntityType
  point_x : ff_GeneralHandle
  point_y : ff_GeneralHandle
  line_p1 : ff_GeneralHandle
  line_p2 : ff_GeneralHandle
  circle_c : ff_GeneralHandle
  circle_r : ff_GeneralHandle
  arc_p1 : ff_GeneralHandle
  arc_p2 : ff_GeneralHandle
  arc_p3 : ff_GeneralHandle
  deriving DecidableEq, Repr

/-- Entity table payload `ff_Entity` (its single field `def` renamed `edef`). -/
structure ff_Entity where
  edef : ff_EntityDef
  deriving DecidableEq, Repr

/-- Number of configured constraint types: `FF_COUNT` (GENERAL, HORIZONTAL). -/
def FF_COUNT : ℕ := 2

/-- Constraint definition `ff_ConstraintDef`.  `eq` is an owning pointer that
may be NULL (`none`); `type` is the C enum as an integer so the
`type >= FF_COUNT` range check is meaningful. -/
structure ff_ConstraintDef where
  eq : Option ff_Expr
  type : ℕ
  ents : List ff_GeneralHandle
  pars : List ff_GeneralHandle
  ent_count : ℕ
  par_count : ℕ
  deriving DecidableEq, Repr

/-- Constraint table payload `ff_Constraint`: the definition plus the
Jacobian-row solver state `JMR` (fields flattened: `err`, `dervs`,
`dervs_y`). -/
structure ff_Constraint where
  cdef : ff_ConstraintDef
  err : ℚ
  dervs : List ff_Expr
  dervs_y : List ℚ
  deriving DecidableEq, Repr

/-- `ff_Parameter_DEFAULT()`: zero-initialised payload. -/
def ff_Parameter_DEFAULT : ff_Parameter := { v := 0 }

/-- `ff_Entity_DEFAULT()`: zero-initialised payload (handles zeroed). -/
def ff_Entity_DEFAULT : ff_Entity :=
  { edef := { type := .point
              point_x := ⟨0, 0⟩, point_y := ⟨0, 0⟩
              line_p1 := ⟨0, 0⟩, line_p2 := ⟨0, 0⟩
              circle_c := ⟨0, 0⟩, circle_r := ⟨0, 0⟩
              arc_p1 := ⟨0, 0⟩, arc_p2 := ⟨0, 0⟩, arc_p3 := ⟨0, 0⟩ } }

/-- `ff_Constraint_DEFAULT()`: zero-initialised payload, `JMR` cleared. -/
def ff_Constraint_DEFAULT : ff_Constraint :=
  { cdef := { eq := none, type := 0, ents := [], pars := [], ent_count := 0, par_count := 0 }
    err := 0
    dervs := []
    dervs_y := [] }

/-- Parameter definition `ff_ParameterDef`. -/
structure ff_ParameterDef where
  v : ℚ
  deriving DecidableEq, Repr

/-- `ff_ParameterDef_IsValid`: always true. -/
def ff_ParameterDef_IsValid (_ : ff_ParameterDef) : Bool := true

/-- `ff_EntityDef_IsValid`: the C function's switch has empty bodies for all
four in-range entity kinds (the `if (0)` branch under `FF_POINT` is dead
code) and falls through to `return true`; no handle field is inspected.  An
out-of-range `type` calls `ff_ERROR` and aborts, which is unrepresentable
here because `ff_EntityType` has exactly the four in-range values. -/
def ff_EntityDef_IsValid (_ : ff_EntityDef) : Bool := true

/-- `ff_ConstraintDef_IsValid`: rejects a NULL equation and an out-of-range
constraint type. -/
def ff_ConstraintDef_IsValid (d : ff_ConstraintDef) : Bool :=
  d.eq.isSome && d.type < FF_COUNT

/-- Sketch `ff_Sketch`.  The scratch pointer arrays `tmp_contraints` (sic)
and `tmp_params` hold slot indices standing for the interior pointers
`ff_Constraint*` / `ff_Parameter*`; the `malloc`ed scratch buffers are
lists. -/
structure ff_Sketch where
  params : ff_table ff_Parameter
  entities : ff_table ff_Entity
  constraints : ff_table ff_Constraint
  link_outdated : Bool
  normal_mtr : List ℚ
  itrm_sol : List ℚ
  cached_params : List ℚ
  tmp_contraints : List ℕ
  tmp_params : List ℕ
  deriving DecidableEq, Repr

/-- `ffSketch_Init`. -/
def ffSketch_Init (p_cap e_cap c_cap : ℕ) : ff_Sketch :=
  { params := ffTBL_init ff_Parameter_DEFAULT p_cap
    entities := ffTBL_init ff_Entity_DEFAULT e_cap
    constraints := ffTBL_init ff_Constraint_DEFAULT c_cap
    link_outdated := true
    normal_mtr := []
    itrm_sol := []
    cached_params := []
    tmp_contraints := []
    tmp_params := [] }

/-- `ffSketch_AddParameter`: validate, then create.  Note the C function does
NOT touch `link_outdated`. -/
def ffSketch_AddParameter (skt : ff_Sketch) (p_def : ff_ParameterDef) :
    ff_Sketch × ff_GeneralHandle :=
  if !ff_ParameterDef_IsValid p_def then (skt, ff_INVALIDHANDLE)
  else
    let r := ffTBL_create ff_Parameter_DEFAULT skt.params { v := p_def.v }
    ({ skt with params := r.1 }, r.2)

/-- `ffSketch_AddEntity`: validate, then create; `link_outdated` untouched. -/
def ffSketch_AddEntity (skt : ff_Sketch) (e_def : ff_EntityDef) :
    ff_Sketch × ff_GeneralHandle :=
  if !ff_EntityDef_IsValid e_def then (skt, ff_INVALIDHANDLE)
  else
    let r := ffTBL_create ff_Entity_DEFAULT skt.entities { edef := e_def }
    ({ skt with entities := r.1 }, r.2)

/-- `ffSketch_AddConstraint`: validate, then create with cleared `JMR`;
`link_outdated` untouched. -/
def ffSketch_AddConstraint (skt : ff_Sketch) (c_def : ff_ConstraintDef) :
    ff_Sketch × ff_GeneralHandle :=
  if !ff_ConstraintDef_IsValid c_def then (skt, ff_INVALIDHANDLE)
  else
    let r := ffTBL_create ff_Constraint_DEFAULT skt.constraints
      { cdef := c_def, err := 0, dervs := [], dervs_y := [] }
    ({ skt with constraints := r.1 }, r.2)

/-- `ffSketch_DeleteParameter`; `link_outdated` untouched. -/
def ffSketch_DeleteParameter (skt : ff_Sketch) (h : ff_GeneralHandle) :
    ff_Sketch × Bool :=
  let r := ffTBL_destroy skt.params h
  ({ skt with params := r.1 }, r.2)

/-- `ffSketch_DeleteEntity`; `link_outdated` untouched. -/
def ffSketch_DeleteEntity (skt : ff_Sketch) (h : ff_GeneralHandle) :
    ff_Sketch × Bool :=
  let r := ffTBL_destroy skt.entities h
  ({ skt with entities := r.1 }, r.2)

/-- `ffSketch_DeleteConstraint`; `link_outdated` untouched. -/
def ffSketch_DeleteConstraint (skt : ff_Sketch) (h : ff_GeneralHandle) :
    ff_Sketch × Bool :=
  let r := ffTBL_destroy skt.constraints h
  ({ skt with constraints := r.1 }, r.2)

/-- `ffSketch_GetParameter` / `ffSketch_GetParameter_Protected`. -/
def ffSketch_GetParameter (skt : ff_Sketch) (h : ff_GeneralHandle) : Option ff_Parameter :=
  ffTBL_get skt.params h

/-- `ffSketch_GetEntity` / `ffSketch_GetEntity_Protected`. -/
def ffSketch_GetEntity (skt : ff_Sketch) (h : ff_GeneralHandle) : Option ff_Entity :=
  ffTBL_get skt.entities h

/-- `ffSketch_GetConstraint` / `ffSketch_GetConstraint_Protected`. -/
def ffSketch_GetConstraint (skt : ff_Sketch) (h : ff_GeneralHandle) : Option ff_Constraint :=
  ffTBL_get skt.constraints h

/-- `ffParam_Equals` (also `ffEntity_Equals`, `ffConstraint_Equals`). -/
def ffParam_Equals (a b : ff_GeneralHandle) : Bool := ffGenHandle_Equals a b

/-- `ffSketch_FreeToBaseState`: release every live constraint's derivative
trees and value array, then the sketch-level scratch buffers.  Freeing memory
is modelled by clearing the lists; the C code leaves the per-constraint
pointers dangling but every path reallocates them (in the linker) before the
next read. -/
def ffSketch_FreeToBaseState (skt : ff_Sketch) : ff_Sketch :=
  { skt with
    constraints := { skt.constraints with
      slots := skt.constraints.slots.map (fun sl =>
        if sl.alive then
          { sl with payload := { sl.payload with dervs := [], dervs_y := [] } }
        else sl) }
    normal_mtr := []
    itrm_sol := []
    cached_params := []
    tmp_contraints := []
    tmp_params := [] }

/-- Constraint-table walk of `ffSketch_tryRelink`: indices of live slots in
table-index order, starting at index `i` (the loop has no break; it appends
every live slot's pointer). -/
def consLiveWalk : List (ff_slot ff_Constraint) → ℕ → List ℕ
  | [], _ => []
  | sl :: rest, i =>
    if sl.alive then i :: consLiveWalk rest (i + 1) else consLiveWalk rest (i + 1)

/-- Parameter-table walk of the derivative-filling loop: collect the handle
`{ idx, gen }` of each live slot in table-index order; `p` live slots have
been collected so far, and the loop breaks as soon as the count reaches
`par_cnt` (the check sits AFTER the increment, exactly as in the C code). -/
def paramHandleWalk : List (ff_slot ff_Parameter) → ℕ → ℕ → ℕ → List ff_GeneralHandle
  | [], _, _, _ => []
  | sl :: rest, i, p, par_cnt =>
    if sl.alive then
      ⟨i, sl.gen⟩ ::
        (if p + 1 ≥ par_cnt then [] else paramHandleWalk rest (i + 1) (p + 1) par_cnt)
    else paramHandleWalk rest (i + 1) p par_cnt

/-- Parameter-table walk of the `tmp_params` loop: same traversal and break
as `paramHandleWalk`, collecting the payload pointer (slot index) instead. -/
def paramPtrWalk : List (ff_slot ff_Parameter) → ℕ → ℕ → ℕ → List ℕ
  | [], _, _, _ => []
  | sl :: rest, i, p, par_cnt =>
    if sl.alive then
      i :: (if p + 1 ≥ par_cnt then [] else paramPtrWalk rest (i + 1) (p + 1) par_cnt)
    else paramPtrWalk rest (i + 1) p par_cnt

/-- Inner parameter loop of the linker: `expr_derivative(eq, h, true)` for
each collected live-parameter handle, in order.  `none` when `eq` is NULL
(the C code would dereference it inside `expr_derivative`) or the derivative
hits an unsupported operator kind (`ff_ERROR` abort). -/
def derivForHandles (eq? : Option ff_Expr) : List ff_GeneralHandle → Option (List ff_Expr)
  | [] => some []
  | h :: rest =>
    match eq?.bind (fun e => expr_derivative e h true) with
    | none => none
    | some d =>
      match derivForHandles eq? rest with
      | none => none
      | some ds => some (d :: ds)

/-- Constraint-walk part of `ffSketch_tryRelink`: for each live constraint
(slot index in the list), fill `JMR.dervs` with the protected derivatives for
the collected parameter handles and zero `JMR.dervs_y`. -/
def fillDervs (pHandles : List ff_GeneralHandle) :
    List ℕ → ff_table ff_Constraint → Option (ff_table ff_Constraint)
  | [], ct => some ct
  | ci :: rest, ct =>
    match ct.slots[ci]? with
    | none => none
    | some sl =>
      match derivForHandles sl.payload.cdef.eq pHandles with
      | none => none
      | some ds =>
        let payload' := { sl.payload with
          dervs := ds
          dervs_y := List.replicate pHandles.length 0 }
        fillDervs pHandles rest
          { ct with slots := ct.slots.set ci { sl with payload := payload' } }

/-- `ffSketch_tryRelink`: rebuild the compact working arrays and every
(live constraint, live parameter) derivative tree when `link_outdated` is
set.  The `malloc`ed scratch buffers are modelled zero-initialised; the C
code leaves them uninitialised but writes `normal_mtr` fully before reading
it, and the stale-read of `itrm_sol` in back-substitution is spec-documented
as unspecified scratch. -/
def ffSketch_tryRelink (skt : ff_Sketch) : Option ff_Sketch :=
  if !skt.link_outdated then some skt
  else
    let s0 := ffSketch_FreeToBaseState skt
    let eq_cnt := s0.constraints.alive_count
    let par_cnt := s0.params.alive_count
    let liveCons := consLiveWalk s0.constraints.slots 0
    let pHandles := paramHandleWalk s0.params.slots 0 0 par_cnt
    match fillDervs pHandles liveCons s0.constraints with
    | none => none
    | some ctab =>
      some { s0 with
        constraints := ctab
        tmp_contraints := liveCons
        tmp_params := paramPtrWalk s0.params.slots 0 0 par_cnt
        normal_mtr := List.replicate (eq_cnt * eq_cnt) 0
        itrm_sol := List.replicate eq_cnt 0
        cached_params := List.replicate par_cnt 0
        link_outdated := false }

/-- Payload read through the interior pointer `tmp_contraints[i]`.  Reads
through a pointer whose slot index is out of range are heap UB in C and
unreachable in the states the solver visits; the model returns the default
payload there (the numeric pipeline below is only exercised on linked
sketches). -/
def consPayloadAt (s : ff_Sketch) (i : ℕ) : ff_Constraint :=
  match s.tmp_contraints[i]? with
  | some ci =>
    match s.constraints.slots[ci]? with
    | some sl => sl.payload
    | none => ff_Constraint_DEFAULT
  | none => ff_Constraint_DEFAULT

/-- Write through the interior pointer `tmp_contraints[i]` (no-op on an
out-of-range index, see `consPayloadAt`). -/
def modifyConsAt (s : ff_Sketch) (i : ℕ) (f : ff_Constraint → ff_Constraint) : ff_Sketch :=
  match s.tmp_contraints[i]? with
  | some ci =>
    match s.constraints.slots[ci]? with
    | some sl =>
      { s with constraints := { s.constraints with
          slots := s.constraints.slots.set ci { sl with payload := f sl.payload } } }
    | none => s
  | none => s

/-- Loop body of `ffSketch_calcError`: for `i` running over the live
constraints (`k` iterations remain), set `JMR.err := expr_evaluate(eq)` and
clear the converged flag when `|err| > tolerance`.  `none` models the crash
on a NULL equation or a dead parameter handle, and the heap UB of an
out-of-range `tmp_contraints` read. -/
def calcErrGo (ops : MathOps) (tolerance : ℚ) :
    ℕ → ℕ → Bool → ff_Sketch → Option (Bool × ff_Sketch)
  | 0, _, conv, s => some (conv, s)
  | k + 1, i, conv, s =>
    match s.tmp_contraints[i]? with
    | none => none
    | some ci =>
      match s.constraints.slots[ci]? with
      | none => none
      | some sl =>
        match sl.payload.cdef.eq.bind (fun e => expr_evaluate ops e s.params) with
        | none => none
        | some v =>
          let s' := { s with constraints := { s.constraints with
            slots := s.constraints.slots.set ci { sl with payload := { sl.payload with err := v } } } }
          calcErrGo ops tolerance k (i + 1) (conv && !(|v| > tolerance)) s'

/-- `ffSketch_calcError(skt, tolerance)`: evaluate every live constraint's
residual into `JMR.err` and report convergence.  Returns the updated sketch
alongside the C function's boolean. -/
def ffSketch_calcError (ops : MathOps) (skt : ff_Sketch) (tolerance : ℚ) :
    Option (Bool × ff_Sketch) :=
  calcErrGo ops tolerance skt.constraints.alive_count 0 true skt

/-- Jacobian evaluation loop of `ffSketch_Solve`: for each live constraint,
`JMR.dervs_y[p] := expr_evaluate(JMR.dervs[p])` for every `p < cols`. -/
def jacobianGo (ops : MathOps) (cols : ℕ) : ℕ → ℕ → ff_Sketch → Option ff_Sketch
  | 0, _, s => some s
  | k + 1, i, s =>
    match s.tmp_contraints[i]? with
    | none => none
    | some ci =>
      match s.constraints.slots[ci]? with
      | none => none
      | some sl =>
        match (List.range cols).mapM (fun p =>
            match sl.payload.dervs[p]? with
            | none => none
            | some d => expr_evaluate ops d s.params) with
        | none => none
        | some ys =>
          let s' := { s with constraints := { s.constraints with
            slots := s.constraints.slots.set ci { sl with payload := { sl.payload with dervs_y := ys } } } }
          jacobianGo ops cols k (i + 1) s'

/-- `JMR.dervs_y[p]` of the `i`-th working constraint (0 on out-of-range,
matching `consPayloadAt`). -/
def dervsYVal (s : ff_Sketch) (i p : ℕ) : ℚ := ((consPayloadAt s i).dervs_y).getD p 0

/-- One entry `N[r + c*rows] = Σ_i J[r][i]·J[c][i]` of the normal matrix,
with the C code's skip-when-either-factor-is-zero shortcut (numerically a
no-op over ℚ). -/
def normalEntry (s : ff_Sketch) (cols r c : ℕ) : ℚ :=
  (List.range cols).foldl (fun sum i =>
    let cV := dervsYVal s c i
    let rV := dervsYVal s r i
    if cV = 0 ∨ rV = 0 then sum else sum + rV * cV) 0

/-- Build the column-major `rows × rows` normal matrix (flat index
`r + c * rows`). -/
def buildNormal (s : ff_Sketch) (rows cols : ℕ) : ff_Sketch :=
  { s with normal_mtr :=
      ((List.range rows).map (fun c =>
        (List.range rows).map (fun r => normalEntry s cols r c))).flatten }

/-- Flat normal-matrix read (a C read of uninitialised or out-of-range
memory, unreachable in linked states, is 0 here). -/
def mtxGet (m : List ℚ) (k : ℕ) : ℚ := m.getD k 0

/-- Flat normal-matrix write. -/
def mtxSet (m : List ℚ) (k : ℕ) (v : ℚ) : List ℚ := m.set k v

/-- Pivot epsilon `1e-10`, hard-coded in `ffSketch_Solve`. -/
def FF_EPSILON : ℚ := 1 / 10000000000

/-- `JMR.err` of the `i`-th working constraint. -/
def errAt (s : ff_Sketch) (i : ℕ) : ℚ := (consPayloadAt s i).err

/-- Set `JMR.err` of the `i`-th working constraint. -/
def setErrAt (s : ff_Sketch) (i : ℕ) (v : ℚ) : ff_Sketch :=
  modifyConsAt s i (fun c => { c with err := v })

/-- Partial-pivot search in column `row`: the first candidate row in
`[row, rows)` whose `|N[cand + row*rows]|` strictly exceeds the running
maximum (initialised to `(row, 0.0)` as in the C code). -/
def findPivot (N : List ℚ) (rows row : ℕ) : ℕ × ℚ :=
  (List.range' row (rows - row)).foldl
    (fun pr cand =>
      if |mtxGet N (cand + row * rows)| > pr.2 then (cand, |mtxGet N (cand + row * rows)|)
      else pr)
    (row, 0)

/-- Swap rows `row` and `pivot` of the normal matrix, column by column, with
the C code's temp-variable sequence. -/
def swapNormalRows (rows row pivot : ℕ) (N : List ℚ) : List ℚ :=
  (List.range rows).foldl (fun N col =>
    let temp := mtxGet N (row + col * rows)
    let N := mtxSet N (row + col * rows) (mtxGet N (pivot + col * rows))
    mtxSet N (pivot + col * rows) temp) N

/-- Eliminate one target row below the pivot row (skipping on a near-zero
diagonal, as the C code does inside the target loop). -/
def elimTarget (rows row : ℕ) (st : List ℚ × ff_Sketch) (target : ℕ) :
    List ℚ × ff_Sketch :=
  let N := st.1
  let s := st.2
  if |mtxGet N (row + row * rows)| < FF_EPSILON then st
  else
    let coefficient := mtxGet N (target + row * rows) / mtxGet N (row + row * rows)
    let N' := (List.range rows).foldl (fun N col =>
      mtxSet N (target + col * rows)
        (mtxGet N (target + col * rows) - mtxGet N (row + col * rows) * coefficient)) N
    let s' := setErrAt s target (errAt s target - errAt s row * coefficient)
    (N', s')

/-- One outer iteration of the forward elimination: pivot search, the
small-pivot skip, the row swap in `N`, the `err` swap on the constraint
records, then elimination of the rows below. -/
def gaussRow (rows : ℕ) (st : List ℚ × ff_Sketch) (row : ℕ) : List ℚ × ff_Sketch :=
  let N := st.1
  let s := st.2
  let pv := findPivot N rows row
  if pv.2 < FF_EPSILON then st
  else
    let N1 := swapNormalRows rows row pv.1 N
    let temp := errAt s row
    let s1 := setErrAt s row (errAt s pv.1)
    let s2 := setErrAt s1 pv.1 temp
    (List.range' (row + 1) (rows - (row + 1))).foldl (elimTarget rows row) (N1, s2)

/-- Forward elimination with partial pivoting over all rows. -/
def gaussElim (rows : ℕ) (N : List ℚ) (s : ff_Sketch) : List ℚ × ff_Sketch :=
  (List.range rows).foldl (gaussRow rows) (N, s)

/-- Back substitution: rows from `rows-1` down to 0; a near-zero diagonal
leaves `itrm_sol[row]` at its previous (possibly stale) value, exactly as the
C code does. -/
def backSub (rows : ℕ) (N : List ℚ) (s : ff_Sketch) (sol : List ℚ) : List ℚ :=
  ((List.range rows).reverse).foldl (fun sol row =>
    if |mtxGet N (row + row * rows)| < FF_EPSILON then sol
    else
      let base := errAt s row / mtxGet N (row + row * rows)
      let value := ((List.range' (row + 1) (rows - (row + 1))).reverse).foldl
        (fun v prev => v - sol.getD prev 0 * mtxGet N (row + prev * rows) / mtxGet N (row + row * rows))
        base
      sol.set row value) sol

/-- Parameter correction: `param_c.v -= Σ_r itrm_sol[r] · J[r][c]` through
the `tmp_params` interior pointers. -/
def updateParams (rows cols : ℕ) (sol : List ℚ) (s : ff_Sketch) : ff_Sketch :=
  (List.range cols).foldl (fun s c =>
    let corr := (List.range rows).foldl (fun corr r => corr + sol.getD r 0 * dervsYVal s r c) 0
    match s.tmp_params[c]? with
    | none => s
    | some pi =>
      match s.params.slots[pi]? with
      | none => s
      | some sl =>
        { s with params := { s.params with
            slots := s.params.slots.set pi { sl with payload := { sl.payload with v := sl.payload.v - corr } } } }) s

/-- Body of one Gauss–Newton step after the convergence check: Jacobian
evaluation, normal matrix, forward elimination, back substitution, parameter
correction. -/
def ffSketch_solveStep (ops : MathOps) (s : ff_Sketch) : Option ff_Sketch :=
  let rows := s.constraints.alive_count
  let cols := s.params.alive_count
  match jacobianGo ops cols rows 0 s with
  | none => none
  | some s1 =>
    let s2 := buildNormal s1 rows cols
    let g := gaussElim rows s2.normal_mtr s2
    let s3 := { g.2 with normal_mtr := g.1 }
    let sol := backSub rows g.1 s3 s3.itrm_sol
    let s4 := { s3 with itrm_sol := sol }
    some (updateParams rows cols sol s4)

/-- The `for (step …)` loop of `ffSketch_Solve` as fuel recursion: exhausting
`max_steps` returns the C function's final `return converged` with
`converged = false`. -/
def solveLoop (ops : MathOps) (tolerance : ℚ) : ℕ → ff_Sketch → Option (Bool × ff_Sketch)
  | 0, s => some (false, s)
  | n + 1, s =>
    match ffSketch_calcError ops s tolerance with
    | none => none
    | some (true, s1) => some (true, s1)
    | some (false, s1) =>
      match ffSketch_solveStep ops s1 with
      | none => none
      | some s2 => solveLoop ops tolerance n s2

/-- `ffSketch_Solve(skt, tolerance, max_steps)`: relink if needed, return
true immediately when there are no live constraints or no live parameters,
otherwise iterate Gauss–Newton steps. -/
def ffSketch_Solve (ops : MathOps) (skt : ff_Sketch) (tolerance : ℚ) (max_steps : ℕ) :
    Option (Bool × ff_Sketch) :=
  match ffSketch_tryRelink skt with
  | none => none
  | some s =>
    if s.constraints.alive_count = 0 ∨ s.params.alive_count = 0 then some (true, s)
    else solveLoop ops tolerance max_steps s

/-- Placeholder interpretation of the libm functions for concrete test
states; the states below never evaluate a trigonometric node. -/
def dummyOps : MathOps := ⟨id, id, id, id, id⟩

/-- Handle `(0, 1)`: the handle returned by the first `create` on slot 0. -/
def h01 : ff_GeneralHandle := ⟨0, 1⟩

/-- C1: with `protect=true`, the derivative of `sin a` stores the original
child `a` inside its `cos` node WITHOUT an `EXTR_PARAM` wrapper (the C `SIN`
and `COS` cases do not apply `TRY_EXTR_PARAM`), so `expr_free` of the
derivative frees nodes of the original expression; contrast with `sqr a`,
whose reuse of `a` is wrapped. -/
theorem sin_derivative_reuses_child_unprotected :
    (expr_derivative_marked (ff_Expr.sin (ff_Expr.param h01)) h01 true).map
        expr_free_touches_original = some true ∧
    (expr_derivative_marked (ff_Expr.cos (ff_Expr.param h01)) h01 true).map
        expr_free_touches_original = some true ∧
    (expr_derivative_marked (ff_Expr.sqr (ff_Expr.param h01)) h01 true).map
        expr_free_touches_original = some false ∧
    (expr_derivative_marked (ff_Expr.sqrt (ff_Expr.param h01)) h01 true).map
        expr_free_touches_original = some false := by
  decide

/-- Fresh 1/1/1 sketch used to exhibit the `link_outdated` behaviour. -/
def c2_sketch0 : ff_Sketch := ffSketch_Init 1 1 1

/-- The sketch after one (vacuously converged) solve: `link_outdated` is now
false. -/
def c2_solved : ff_Sketch :=
  match ffSketch_Solve dummyOps c2_sketch0 1 1 with
  | some r => r.2
  | none => c2_sketch0

/-- A valid constraint definition (non-NULL equation, in-range type). -/
def c2_cdef : ff_ConstraintDef :=
  { eq := some (ff_Expr.const 0), type := 0, ents := [], pars := [], ent_count := 0, par_count := 0 }

/-- Sketch/handle pair from adding one parameter to the solved sketch. -/
def c2_addp : ff_Sketch × ff_GeneralHandle :=
  ffSketch_AddParameter c2_solved { v := 0 }

/-- Sketch/handle pair from adding one entity to the solved sketch. -/
def c2_adde : ff_Sketch × ff_GeneralHandle :=
  ffSketch_AddEntity c2_solved ff_Entity_DEFAULT.edef

/-- Sketch/handle pair from adding one constraint to the solved sketch. -/
def c2_addc : ff_Sketch × ff_GeneralHandle :=
  ffSketch_AddConstraint c2_solved c2_cdef

/-- C2: none of the six add/delete operations sets `link_outdated`.  Starting
from the reachable state `c2_solved` (one solve has cleared the flag), every
add and every successful delete leaves `link_outdated = false`, so a second
solve will not rebuild the derivative trees. -/
theorem add_delete_leave_link_outdated_false :
    (ffSketch_Solve dummyOps c2_sketch0 1 1).map (fun r => (r.1, r.2.link_outdated)) =
        some (true, false) ∧
    c2_addp.2 ≠ ff_INVALIDHANDLE ∧ c2_addp.1.link_outdated = false ∧
    c2_adde.2 ≠ ff_INVALIDHANDLE ∧ c2_adde.1.link_outdated = false ∧
    c2_addc.2 ≠ ff_INVALIDHANDLE ∧ c2_addc.1.link_outdated = false ∧
    (ffSketch_DeleteParameter c2_addp.1 c2_addp.2).2 = true ∧
    (ffSketch_DeleteParameter c2_addp.1 c2_addp.2).1.link_outdated = false ∧
    (ffSketch_DeleteEntity c2_adde.1 c2_adde.2).2 = true ∧
    (ffSketch_DeleteEntity c2_adde.1 c2_adde.2).1.link_outdated = false ∧
    (ffSketch_DeleteConstraint c2_addc.1 c2_addc.2).2 = true ∧
    (ffSketch_DeleteConstraint c2_addc.1 c2_addc.2).1.link_outdated = false := by
  decide

/-- One-slot parameter table with no live parameter (slot 0 is dead, gen 1). -/
def c4_table : ff_table ff_Parameter := ffTBL_init ff_Parameter_DEFAULT 1

/-- The same table with slot 0 created, holding value 7/2. -/
def c4_table_live : ff_table ff_Parameter :=
  (ffTBL_create ff_Parameter_DEFAULT c4_table { v := 7 }).1

/-- C4: `expr_evaluate` on a `PARAM` node returns the stored value for a live
handle, but on a dead handle the C code dereferences the NULL result of
`ff_paramTBL_get_const` (no failed-lookup branch exists): the evaluation
crashes (`none`) instead of producing 0.0 or a sentinel. -/
theorem expr_evaluate_dead_param_handle_crashes :
    ffTBL_alive c4_table h01 = false ∧
    expr_evaluate dummyOps (ff_Expr.param h01) c4_table = none ∧
    ffTBL_alive c4_table_live h01 = true ∧
    expr_evaluate dummyOps (ff_Expr.param h01) c4_table_live = some 7 := by
  decide

/-- A POINT entity definition whose required coordinate-parameter handles are
both `INVALID_HANDLE` (all other members invalid too). -/
def c6_bad_pointdef : ff_EntityDef :=
  { type := .point
    point_x := ff_INVALIDHANDLE, point_y := ff_INVALIDHANDLE
    line_p1 := ff_INVALIDHANDLE, line_p2 := ff_INVALIDHANDLE
    circle_c := ff_INVALIDHANDLE, circle_r := ff_INVALIDHANDLE
    arc_p1 := ff_INVALIDHANDLE, arc_p2 := ff_INVALIDHANDLE, arc_p3 := ff_INVALIDHANDLE }

/-- Fresh sketch for the C6 evidence. -/
def c6_sketch : ff_Sketch := ffSketch_Init 1 1 1

/-- C6: `ff_EntityDef_IsValid` accepts a POINT definition whose required
handle fields are `INVALID_HANDLE`, and `ffSketch_AddEntity` stores it and
returns a live (non-INVALID) handle instead of rejecting it. -/
theorem add_entity_accepts_invalid_handle_fields :
    ff_EntityDef_IsValid c6_bad_pointdef = true ∧
    (ffSketch_AddEntity c6_sketch c6_bad_pointdef).2 ≠ ff_INVALIDHANDLE ∧
    ffTBL_alive (ffSketch_AddEntity c6_sketch c6_bad_pointdef).1.entities
      (ffSketch_AddEntity c6_sketch c6_bad_pointdef).2 = true := by
  decide

/-- Evaluation ignores a `TRY_EXTR_PARAM` wrapper: `EXTR_PARAM` delegates to
its single child. -/
theorem expr_evaluate_TRY_EXTR_PARAM (ops : MathOps) (pr : Bool) (e : ff_Expr)
    (t : ff_table ff_Parameter) :
    expr_evaluate ops (TRY_EXTR_PARAM pr e) t = expr_evaluate ops e t := by
  cases pr <;> rfl

/-- For every expression, the derivatives with and without protection either
both abort, or both exist and evaluate identically against every parameter
table: the protect flag only inserts `EXTR_PARAM` wrappers. -/
theorem expr_derivative_protect_cases (ops : MathOps) (E : ff_Expr) (p : ff_GeneralHandle) :
    (expr_derivative E p true = none ∧ expr_derivative E p false = none) ∨
    (∃ d₁ d₂, expr_derivative E p true = some d₁ ∧ expr_derivative E p false = some d₂ ∧
      ∀ t, expr_evaluate ops d₁ t = expr_evaluate ops d₂ t) := by
  induction E with
  | const v => exact Or.inr ⟨_, _, rfl, rfl, fun _ => rfl⟩
  | param h => exact Or.inr ⟨_, _, rfl, rfl, fun _ => rfl⟩
  | extr_param a ih => exact ih
  | param_idx i => exact Or.inl ⟨rfl, rfl⟩
  | entity_idx i => exact Or.inl ⟨rfl, rfl⟩
  | point_x i => exact Or.inl ⟨rfl, rfl⟩
  | point_y i => exact Or.inl ⟨rfl, rfl⟩
  | circle_r i => exact Or.inl ⟨rfl, rfl⟩
  | circle_c i => exact Or.inl ⟨rfl, rfl⟩
  | line_p1 i => exact Or.inl ⟨rfl, rfl⟩
  | line_p2 i => exact Or.inl ⟨rfl, rfl⟩
  | add a b iha ihb =>
    rcases iha with ⟨ha1, ha2⟩ | ⟨da, da', ha1, ha2, heva⟩
    · exact Or.inl ⟨by simp [expr_derivative, ha1], by simp [expr_derivative, ha2]⟩
    rcases ihb with ⟨hb1, hb2⟩ | ⟨db, db', hb1, hb2, hevb⟩
    · exact Or.inl ⟨by simp [expr_derivative, ha1, hb1], by simp [expr_derivative, ha2, hb2]⟩
    exact Or.inr ⟨.add da db, .add da' db',
      by simp [expr_derivative, ha1, hb1], by simp [expr_derivative, ha2, hb2],
      fun t => by simp [expr_evaluate, heva t, hevb t]⟩
  | sub a b iha ihb =>
    rcases iha with ⟨ha1, ha2⟩ | ⟨da, da', ha1, ha2, heva⟩
    · exact Or.inl ⟨by simp [expr_derivative, ha1], by simp [expr_derivative, ha2]⟩
    rcases ihb with ⟨hb1, hb2⟩ | ⟨db, db', hb1, hb2, hevb⟩
    · exact Or.inl ⟨by simp [expr_derivative, ha1, hb1], by simp [expr_derivative, ha2, hb2]⟩
    exact Or.inr ⟨.sub da db, .sub da' db',
      by simp [expr_derivative, ha1, hb1], by simp [expr_derivative, ha2, hb2],
      fun t => by simp [expr_evaluate, heva t, hevb t]⟩
  | mul a b iha ihb =>
    rcases iha with ⟨ha1, ha2⟩ | ⟨da, da', ha1, ha2, heva⟩
    · exact Or.inl ⟨by simp [expr_derivative, ha1], by simp [expr_derivative, ha2]⟩
    rcases ihb with ⟨hb1, hb2⟩ | ⟨db, db', hb1, hb2, hevb⟩
    · exact Or.inl ⟨by simp [expr_derivative, ha1, hb1], by simp [expr_derivative, ha2, hb2]⟩
    exact Or.inr ⟨.add (.mul da (.extr_param b)) (.mul (.extr_param a) db),
      .add (.mul da' b) (.mul a db'),
      by simp [expr_derivative, ha1, hb1, TRY_EXTR_PARAM],
      by simp [expr_derivative, ha2, hb2, TRY_EXTR_PARAM],
      fun t => by simp [expr_evaluate, heva t, hevb t]⟩
  | div a b iha ihb =>
    rcases iha with ⟨ha1, ha2⟩ | ⟨da, da', ha1, ha2, heva⟩
    · exact Or.inl ⟨by simp [expr_derivative, ha1], by simp [expr_derivative, ha2]⟩
    rcases ihb with ⟨hb1, hb2⟩ | ⟨db, db', hb1, hb2, hevb⟩
    · exact Or.inl ⟨by simp [expr_derivative, ha1, hb1], by simp [expr_derivative, ha2, hb2]⟩
    exact Or.inr ⟨.div (.sub (.mul da (.extr_param b)) (.mul (.extr_param a) db))
        (.mul (.extr_param b) (.extr_param b)),
      .div (.sub (.mul da' b) (.mul a db')) (.mul b b),
      by simp [expr_derivative, ha1, hb1, TRY_EXTR_PARAM],
      by simp [expr_derivative, ha2, hb2, TRY_EXTR_PARAM],
      fun t => by simp [expr_evaluate, heva t, hevb t]⟩
  | sin a iha =>
    rcases iha with ⟨ha1, ha2⟩ | ⟨da, da', ha1, ha2, heva⟩
    · exact Or.inl ⟨by simp [expr_derivative, ha1], by simp [expr_derivative, ha2]⟩
    exact Or.inr ⟨.mul da (.cos a), .mul da' (.cos a),
      by simp [expr_derivative, ha1], by simp [expr_derivative, ha2],
      fun t => by simp [expr_evaluate, heva t]⟩
  | cos a iha =>
    rcases iha with ⟨ha1, ha2⟩ | ⟨da, da', ha1, ha2, heva⟩
    · exact Or.inl ⟨by simp [expr_derivative, ha1], by simp [expr_derivative, ha2]⟩
    exact Or.inr ⟨.mul (.mul (.const (-1)) (.sin a)) da, .mul (.mul (.const (-1)) (.sin a)) da',
      by simp [expr_derivative, ha1], by simp [expr_derivative, ha2],
      fun t => by simp [expr_evaluate, heva t]⟩
  | asin a iha =>
    rcases iha with ⟨ha1, ha2⟩ | ⟨da, da', ha1, ha2, heva⟩
    · exact Or.inl ⟨by simp [expr_derivative, ha1], by simp [expr_derivative, ha2]⟩
    exact Or.inr ⟨.div da (.sqrt (.sub (.const 1) (.sqr (.extr_param a)))),
      .div da' (.sqrt (.sub (.const 1) (.sqr a))),
      by simp [expr_derivative, ha1, TRY_EXTR_PARAM],
      by simp [expr_derivative, ha2, TRY_EXTR_PARAM],
      fun t => by simp [expr_evaluate, heva t]⟩
  | acos a iha =>
    rcases iha with ⟨ha1, ha2⟩ | ⟨da, da', ha1, ha2, heva⟩
    · exact Or.inl ⟨by simp [expr_derivative, ha1], by simp [expr_derivative, ha2]⟩
    exact Or.inr ⟨.div (.mul (.const (-1)) da) (.sqrt (.sub (.const 1) (.sqr (.extr_param a)))),
      .div (.mul (.const (-1)) da') (.sqrt (.sub (.const 1) (.sqr a))),
      by simp [expr_derivative, ha1, TRY_EXTR_PARAM],
      by simp [expr_derivative, ha2, TRY_EXTR_PARAM],
      fun t => by simp [expr_evaluate, heva t]⟩
  | sqrt a iha =>
    rcases iha with ⟨ha1, ha2⟩ | ⟨da, da', ha1, ha2, heva⟩
    · exact Or.inl ⟨by simp [expr_derivative, ha1], by simp [expr_derivative, ha2]⟩
    exact Or.inr ⟨.div da (.mul (.const 2) (.sqrt (.extr_param a))),
      .div da' (.mul (.const 2) (.sqrt a)),
      by simp [expr_derivative, ha1, TRY_EXTR_PARAM],
      by simp [expr_derivative, ha2, TRY_EXTR_PARAM],
      fun t => by simp [expr_evaluate, heva t]⟩
  | sqr a iha =>
    rcases iha with ⟨ha1, ha2⟩ | ⟨da, da', ha1, ha2, heva⟩
    · exact Or.inl ⟨by simp [expr_derivative, ha1], by simp [expr_derivative, ha2]⟩
    exact Or.inr ⟨.mul (.const 2) (.mul (.extr_param a) da),
      .mul (.const 2) (.mul a da'),
      by simp [expr_derivative, ha1, TRY_EXTR_PARAM],
      by simp [expr_derivative, ha2, TRY_EXTR_PARAM],
      fun t => by simp [expr_evaluate, heva t]⟩

/-- C10: for every expression, parameter handle and parameter table,
evaluating the protected derivative gives exactly the same result as
evaluating the unprotected one (including aborting on the same inputs):
protection changes ownership structure, never value. -/
theorem expr_derivative_protect_value_invariant (ops : MathOps) (E : ff_Expr)
    (p : ff_GeneralHandle) (t : ff_table ff_Parameter) :
    (expr_derivative E p true).bind (fun d => expr_evaluate ops d t) =
    (expr_derivative E p false).bind (fun d => expr_evaluate ops d t) := by
  rcases expr_derivative_protect_cases ops E p with ⟨h1, h2⟩ | ⟨d₁, d₂, h1, h2, hev⟩
  · rw [h1, h2]
  · rw [h1, h2]
    simpa using hev t


/-- `fillDervs` only rewrites slot payloads; the stored `alive_count` field
is untouched. -/
theorem fillDervs_alive_count (phs : List ff_GeneralHandle) (cis : List ℕ)
    (ct ct' : ff_table ff_Constraint) (h : fillDervs phs cis ct = some ct') :
    ct'.alive_count = ct.alive_count := by
  induction cis generalizing ct with
  | nil =>
    simp [fillDervs] at h
    rw [← h]
  | cons ci rest ih =>
    unfold fillDervs at h
    split at h
    · exact absurd h (by simp)
    · split at h
      · exact absurd h (by simp)
      · dsimp only at h
        have hx := ih _ h
        exact hx

/-- `ffSketch_tryRelink` never changes the two live counters the solver
branches on. -/
theorem tryRelink_alive_counts (s s' : ff_Sketch) (h : ffSketch_tryRelink s = some s') :
    s'.constraints.alive_count = s.constraints.alive_count ∧
    s'.params.alive_count = s.params.alive_count := by
  unfold ffSketch_tryRelink at h
  by_cases hl : s.link_outdated
  · rw [if_neg (by simp [hl])] at h
    dsimp only at h
    split at h
    · exact absurd h (by simp)
    · rename_i ctab hfd
      simp only [Option.some.injEq] at h
      have hc := fillDervs_alive_count _ _ _ _ hfd
      constructor
      · rw [← h]
        simpa [ffSketch_FreeToBaseState] using hc
      · rw [← h]
        simp [ffSketch_FreeToBaseState]
  · rw [if_pos (by simp [hl])] at h
    simp only [Option.some.injEq] at h
    rw [← h]
    exact ⟨rfl, rfl⟩

/-- C8: with zero live constraints or zero live parameters, `ffSketch_Solve`
is exactly relink-then-return-true: no Gauss–Newton iteration runs, for any
tolerance and any step budget. -/
theorem solve_vacuously_converged (ops : MathOps) (skt : ff_Sketch) (tolerance : ℚ)
    (max_steps : ℕ)
    (h : skt.constraints.alive_count = 0 ∨ skt.params.alive_count = 0) :
    ffSketch_Solve ops skt tolerance max_steps =
      (ffSketch_tryRelink skt).map (fun s => (true, s)) := by
  unfold ffSketch_Solve
  cases hr : ffSketch_tryRelink skt with
  | none => rfl
  | some s =>
    have hc := tryRelink_alive_counts skt s hr
    simp only [Option.map_some']
    rw [if_pos]
    rcases h with h | h
    · exact Or.inl (by rw [hc.1, h])
    · exact Or.inr (by rw [hc.2, h])

/-- Witness for C8 at a concrete sketch: a fresh 1/1/1 sketch has no live
constraint, and `solve` returns `true` immediately after the relink. -/
theorem solve_vacuously_converged_witness :
    ffSketch_Solve dummyOps (ffSketch_Init 1 1 1) 1 5 =
      (ffSketch_tryRelink (ffSketch_Init 1 1 1)).map (fun s => (true, s)) :=
  solve_vacuously_converged dummyOps (ffSketch_Init 1 1 1) 1 5 (Or.inl (by decide))

/-- The pop half of `create` never changes the capacity field. -/
theorem ffTBL_create_pop_cap {α : Type} (t : ff_table α) (p : α) :
    (ffTBL_create_pop t p).1.cap = t.cap := by
  unfold ffTBL_create_pop
  split
  · rfl
  · split
    · rfl
    · rfl

/-- Capacity after `ffTBL__grow` with a nonzero request: the 16-bit clamp. -/
theorem ffTBL_grow_cap {α : Type} (dflt : α) (t : ff_table α) (add : ℕ)
    (hadd : add ≠ 0) (hcap : t.cap ≤ 65535) :
    (ffTBL_grow dflt t add).cap = min (t.cap + add) 65535 := by
  unfold ffTBL_grow
  rw [if_neg hadd]
  dsimp only
  split_ifs with h1 h2 h3 <;> first | omega | (dsimp only; omega)

/-- `ffTBL__grow` is a no-op on a table already at the 16-bit cap. -/
theorem ffTBL_grow_full {α : Type} (dflt : α) (t : ff_table α) (add : ℕ)
    (hc : t.cap = 65535) : ffTBL_grow dflt t add = t := by
  unfold ffTBL_grow
  dsimp only
  split_ifs <;> first | rfl | (exfalso; omega)

/-- `ffTBL_create` on a full table (cap 65535, empty free list) fails with
the invalid handle and leaves the table unchanged. -/
theorem ffTBL_create_full {α : Type} (dflt : α) (t : ff_table α) (p : α)
    (hc : t.cap = 65535) (hf : t.free_head = FF_INVALID_INDEX) :
    ffTBL_create dflt t p = (t, ff_INVALIDHANDLE) := by
  unfold ffTBL_create
  dsimp only
  rw [if_pos hf, ffTBL_grow_full dflt t _ hc]
  unfold ffTBL_create_pop
  rw [if_pos hf]

/-- Capacity after `ffTBL_create`: unchanged when the free list is nonempty,
otherwise grown by 64 slots or half the capacity and clamped to 65535. -/
theorem ffTBL_create_cap {α : Type} (dflt : α) (t : ff_table α) (p : α)
    (hcap : t.cap ≤ 65535) :
    (ffTBL_create dflt t p).1.cap =
      if t.free_head = FF_INVALID_INDEX then
        min (t.cap + (if t.cap < 64 then 64 else t.cap / 2)) 65535
      else t.cap := by
  unfold ffTBL_create
  dsimp only
  by_cases hf : t.free_head = FF_INVALID_INDEX
  · simp only [hf, if_true]
    rw [ffTBL_create_pop_cap]
    have hne : (if t.cap < 64 then (64 : ℕ) else t.cap / 2) ≠ 0 := by
      split_ifs <;> omega
    rw [if_neg hne]
    exact ffTBL_grow_cap dflt t _ hne hcap
  · simp only [hf, if_false]
    exact ffTBL_create_pop_cap t p

/-- Capacity is untouched by `ffTBL_destroy`. -/
theorem ffTBL_destroy_cap {α : Type} (t : ff_table α) (h : ff_GeneralHandle) :
    (ffTBL_destroy t h).1.cap = t.cap := by
  unfold ffTBL_destroy
  split
  · rfl
  · split
    · rfl
    · rfl

/-- C9: `create` pops the free-list head when one exists; with an empty free
list it grows by 64 slots or half the capacity, clamped to 65535; on a full
table it returns `INVALID_HANDLE` (and so does `ffSketch_AddParameter`), and
neither `create` nor `destroy` ever shrinks the capacity. -/
theorem create_pops_grows_and_exhausts {α : Type} (dflt : α) (t : ff_table α) (p : α)
    (hcap : t.cap ≤ 65535) :
    (∀ s, t.free_head ≠ FF_INVALID_INDEX → t.slots[t.free_head]? = some s →
        ffTBL_create dflt t p =
          ({ t with
              slots := t.slots.set t.free_head { s with alive := true, payload := p }
              free_head := s.next_free
              alive_count := t.alive_count + 1 }, ⟨t.free_head, s.gen⟩)) ∧
    (t.free_head = FF_INVALID_INDEX →
        (ffTBL_create dflt t p).1.cap =
          min (t.cap + (if t.cap < 64 then 64 else t.cap / 2)) 65535) ∧
    (t.cap = 65535 → t.free_head = FF_INVALID_INDEX →
        ffTBL_create dflt t p = (t, ff_INVALIDHANDLE)) ∧
    t.cap ≤ (ffTBL_create dflt t p).1.cap ∧
    (∀ h, (ffTBL_destroy t h).1.cap = t.cap) ∧
    (∀ (skt : ff_Sketch) (pd : ff_ParameterDef),
        skt.params.cap = 65535 → skt.params.free_head = FF_INVALID_INDEX →
        (ffSketch_AddParameter skt pd).2 = ff_INVALIDHANDLE) := by
  refine ⟨?_, ?_, ?_, ?_, ?_, ?_⟩
  · intro s hf hs
    unfold ffTBL_create
    dsimp only
    rw [if_neg hf]
    unfold ffTBL_create_pop
    rw [if_neg hf, hs]
  · intro hf
    rw [ffTBL_create_cap dflt t p hcap, if_pos hf]
  · intro hc hf
    exact ffTBL_create_full dflt t p hc hf
  · rw [ffTBL_create_cap dflt t p hcap]
    split_ifs <;> omega
  · intro h
    exact ffTBL_destroy_cap t h
  · intro skt pd hc hf
    unfold ffSketch_AddParameter
    rw [if_neg (by simp [ff_ParameterDef_IsValid])]
    dsimp only
    rw [ffTBL_create_full ff_Parameter_DEFAULT skt.params _ hc hf]

/-- A full parameter table: capacity at the 16-bit limit, empty free list. -/
def c9_full_table : ff_table ff_Parameter :=
  { slots := [], cap := 65535, alive_count := 0, free_head := FF_INVALID_INDEX }

/-- Witness for C9 at the full table: `create` fails with the invalid
handle. -/
theorem create_pops_grows_and_exhausts_witness :
    ffTBL_create ff_Parameter_DEFAULT c9_full_table { v := 0 } =
      (c9_full_table, ff_INVALIDHANDLE) :=
  (create_pops_grows_and_exhausts ff_Parameter_DEFAULT c9_full_table { v := 0 }
    (by decide)).2.2.1 rfl rfl

/-- On supported expressions the derivative never hits the `ff_ERROR`
branch. -/
theorem expr_derivative_isSome_of_supported (e : ff_Expr) (p : ff_GeneralHandle) (pr : Bool)
    (h : SupportedExpr e = true) : (expr_derivative e p pr).isSome = true := by
  induction e with
  | const v => rfl
  | param hh => rfl
  | extr_param a ih => exact ih (by simpa [SupportedExpr] using h)
  | add a b iha ihb =>
    simp only [SupportedExpr, Bool.and_eq_true] at h
    obtain ⟨da, hda⟩ := Option.isSome_iff_exists.mp (iha h.1)
    obtain ⟨db, hdb⟩ := Option.isSome_iff_exists.mp (ihb h.2)
    simp [expr_derivative, hda, hdb]
  | sub a b iha ihb =>
    simp only [SupportedExpr, Bool.and_eq_true] at h
    obtain ⟨da, hda⟩ := Option.isSome_iff_exists.mp (iha h.1)
    obtain ⟨db, hdb⟩ := Option.isSome_iff_exists.mp (ihb h.2)
    simp [expr_derivative, hda, hdb]
  | mul a b iha ihb =>
    simp only [SupportedExpr, Bool.and_eq_true] at h
    obtain ⟨da, hda⟩ := Option.isSome_iff_exists.mp (iha h.1)
    obtain ⟨db, hdb⟩ := Option.isSome_iff_exists.mp (ihb h.2)
    simp [expr_derivative, hda, hdb]
  | div a b iha ihb =>
    simp only [SupportedExpr, Bool.and_eq_true] at h
    obtain ⟨da, hda⟩ := Option.isSome_iff_exists.mp (iha h.1)
    obtain ⟨db, hdb⟩ := Option.isSome_iff_exists.mp (ihb h.2)
    simp [expr_derivative, hda, hdb]
  | sin a ih =>
    obtain ⟨da, hda⟩ := Option.isSome_iff_exists.mp (ih (by simpa [SupportedExpr] using h))
    simp [expr_derivative, hda]
  | cos a ih =>
    obtain ⟨da, hda⟩ := Option.isSome_iff_exists.mp (ih (by simpa [SupportedExpr] using h))
    simp [expr_derivative, hda]
  | asin a ih =>
    obtain ⟨da, hda⟩ := Option.isSome_iff_exists.mp (ih (by simpa [SupportedExpr] using h))
    simp [expr_derivative, hda]
  | acos a ih =>
    obtain ⟨da, hda⟩ := Option.isSome_iff_exists.mp (ih (by simpa [SupportedExpr] using h))
    simp [expr_derivative, hda]
  | sqrt a ih =>
    obtain ⟨da, hda⟩ := Option.isSome_iff_exists.mp (ih (by simpa [SupportedExpr] using h))
    simp [expr_derivative, hda]
  | sqr a ih =>
    obtain ⟨da, hda⟩ := Option.isSome_iff_exists.mp (ih (by simpa [SupportedExpr] using h))
    simp [expr_derivative, hda]
  | param_idx i => simp [SupportedExpr] at h
  | entity_idx i => simp [SupportedExpr] at h
  | point_x i => simp [SupportedExpr] at h
  | point_y i => simp [SupportedExpr] at h
  | circle_r i => simp [SupportedExpr] at h
  | circle_c i => simp [SupportedExpr] at h
  | line_p1 i => simp [SupportedExpr] at h
  | line_p2 i => simp [SupportedExpr] at h

/-- On a supported equation the inner parameter loop of the linker succeeds,
and position `j` of the result is the derivative with respect to the `j`-th
collected handle. -/
theorem derivForHandles_total (e : ff_Expr) (hs : SupportedExpr e = true)
    (phs : List ff_GeneralHandle) :
    ∃ ds, derivForHandles (some e) phs = some ds ∧ ds.length = phs.length ∧
      ∀ (j : ℕ) (hh : ff_GeneralHandle), phs[j]? = some hh →
        ds[j]? = expr_derivative e hh true := by
  induction phs with
  | nil => exact ⟨[], rfl, rfl, by simp⟩
  | cons hh rest ih =>
    obtain ⟨d, hd⟩ := Option.isSome_iff_exists.mp
      (expr_derivative_isSome_of_supported e hh true hs)
    obtain ⟨ds, hds, hlen, hidx⟩ := ih
    refine ⟨d :: ds, ?_, by simp [hlen], ?_⟩
    · unfold derivForHandles
      simp [hd, hds]
    · intro j hj hget
      cases j with
      | zero =>
        simp only [List.getElem?_cons_zero, Option.some.injEq] at hget
        subst hget
        simpa using hd.symm
      | succ j =>
        simp only [List.getElem?_cons_succ] at hget ⊢
        exact hidx j hj hget

/-- Membership in the constraint walk: every collected index points at a live
slot (offset by the start index `i`). -/
theorem consLiveWalk_mem (slots : List (ff_slot ff_Constraint)) (i ci : ℕ)
    (h : ci ∈ consLiveWalk slots i) :
    ∃ j sl, ci = i + j ∧ slots[j]? = some sl ∧ sl.alive = true := by
  induction slots generalizing i with
  | nil => simp [consLiveWalk] at h
  | cons sl rest ih =>
    unfold consLiveWalk at h
    by_cases ha : sl.alive = true
    · rw [if_pos ha] at h
      rcases List.mem_cons.mp h with h | h
      · exact ⟨0, sl, by omega, by simp, ha⟩
      · obtain ⟨j, sl', hj, hsl, hal⟩ := ih (i + 1) h
        exact ⟨j + 1, sl', by omega, by simpa using hsl, hal⟩
    · rw [if_neg ha] at h
      obtain ⟨j, sl', hj, hsl, hal⟩ := ih (i + 1) h
      exact ⟨j + 1, sl', by omega, by simpa using hsl, hal⟩

/-- The constraint walk only looks at the `alive` flags. -/
theorem consLiveWalk_eq_of_alive_map (l₁ l₂ : List (ff_slot ff_Constraint))
    (h : l₁.map (fun sl => sl.alive) = l₂.map (fun sl => sl.alive)) :
    ∀ i, consLiveWalk l₁ i = consLiveWalk l₂ i := by
  induction l₁ generalizing l₂ with
  | nil =>
    cases l₂ with
    | nil => intro i; rfl
    | cons b bs => simp at h
  | cons a as ih =>
    cases l₂ with
    | nil => simp at h
    | cons b bs =>
      simp only [List.map_cons, List.cons.injEq] at h
      intro i
      unfold consLiveWalk
      rw [h.1, ih bs h.2]

/-- Mapping a function that preserves `alive` over the slots leaves the walk
unchanged. -/
theorem consLiveWalk_map (f : ff_slot ff_Constraint → ff_slot ff_Constraint)
    (hf : ∀ sl, (f sl).alive = sl.alive) (slots : List (ff_slot ff_Constraint)) (i : ℕ) :
    consLiveWalk (slots.map f) i = consLiveWalk slots i := by
  apply consLiveWalk_eq_of_alive_map
  rw [List.map_map]
  exact List.map_congr_left (fun sl _ => hf sl)

/-- `fillDervs` preserves the slot-list length. -/
theorem fillDervs_length (phs : List ff_GeneralHandle) (cis : List ℕ)
    (ct ct' : ff_table ff_Constraint) (h : fillDervs phs cis ct = some ct') :
    ct'.slots.length = ct.slots.length := by
  induction cis generalizing ct with
  | nil =>
    simp [fillDervs] at h
    rw [← h]
  | cons ci rest ih =>
    unfold fillDervs at h
    split at h
    · exact absurd h (by simp)
    · split at h
      · exact absurd h (by simp)
      · dsimp only at h
        have hx := ih _ h
        simpa using hx

/-- `fillDervs` changes no slot's `alive` flag, generation, definition or
error field; only `JMR.dervs` / `JMR.dervs_y` are rewritten. -/
theorem fillDervs_slots_pointwise (phs : List ff_GeneralHandle) (cis : List ℕ)
    (ct ct' : ff_table ff_Constraint) (h : fillDervs phs cis ct = some ct') :
    ∀ (j : ℕ) (sl' : ff_slot ff_Constraint), ct'.slots[j]? = some sl' →
      ∃ sl, ct.slots[j]? = some sl ∧ sl'.alive = sl.alive ∧ sl'.gen = sl.gen ∧
        sl'.payload.cdef = sl.payload.cdef ∧ sl'.payload.err = sl.payload.err := by
  induction cis generalizing ct with
  | nil =>
    simp only [fillDervs, Option.some.injEq] at h
    subst h
    intro j sl' hj
    exact ⟨sl', hj, rfl, rfl, rfl, rfl⟩
  | cons ci rest ih =>
    unfold fillDervs at h
    split at h
    · exact absurd h (by simp)
    · rename_i sl0 hsl0
      split at h
      · exact absurd h (by simp)
      · rename_i ds hds
        dsimp only at h
        intro j sl' hj
        obtain ⟨slm, hm1, hm2, hm3, hm4, hm5⟩ := ih _ h j sl' hj
        by_cases hji : j = ci
        · subst hji
          have hlt : j < ct.slots.length := (List.getElem?_eq_some.mp hsl0).1
          rw [List.getElem?_set_eq_of_lt _ hlt] at hm1
          simp only [Option.some.injEq] at hm1
          subst hm1
          exact ⟨sl0, hsl0, hm2, hm3, hm4, hm5⟩
        · rw [List.getElem?_set_ne (fun hcj => hji hcj.symm)] at hm1
          exact ⟨slm, hm1, hm2, hm3, hm4, hm5⟩

/-- `fillDervs` succeeds when every walked slot exists and carries a
supported, non-NULL equation. -/
theorem fillDervs_total (phs : List ff_GeneralHandle) (cis : List ℕ)
    (ct : ff_table ff_Constraint)
    (hcis : ∀ ci ∈ cis, ∃ sl e, ct.slots[ci]? = some sl ∧ sl.payload.cdef.eq = some e ∧
        SupportedExpr e = true) :
    ∃ ct', fillDervs phs cis ct = some ct' := by
  induction cis generalizing ct with
  | nil => exact ⟨ct, rfl⟩
  | cons ci rest ih =>
    obtain ⟨sl, e, hsl, heq, hse⟩ := hcis ci (List.mem_cons_self ci rest)
    obtain ⟨ds, hds, -, -⟩ := derivForHandles_total e hse phs
    rw [← heq] at hds
    unfold fillDervs
    rw [hsl]
    dsimp only
    rw [hds]
    dsimp only
    apply ih
    intro cj hcj
    obtain ⟨slj, ej, hslj, heqj, hsej⟩ := hcis cj (List.mem_cons_of_mem ci hcj)
    by_cases hji : cj = ci
    · subst hji
      rw [hslj] at hsl
      simp only [Option.some.injEq] at hsl
      subst hsl
      have hlt : cj < ct.slots.length := (List.getElem?_eq_some.mp hslj).1
      refine ⟨_, ej, List.getElem?_set_eq_of_lt _ hlt, by simpa using heqj, hsej⟩
    · exact ⟨slj, ej, by rw [List.getElem?_set_ne (fun hc => hji hc.symm)]; exact hslj, heqj, hsej⟩

/-- Slots whose index is not in the processed list are untouched by
`fillDervs`. -/
theorem fillDervs_preserves_other (phs : List ff_GeneralHandle) (cis : List ℕ)
    (ct ct' : ff_table ff_Constraint) (h : fillDervs phs cis ct = some ct')
    (j : ℕ) (hj : j ∉ cis) : ct'.slots[j]? = ct.slots[j]? := by
  induction cis generalizing ct with
  | nil =>
    simp only [fillDervs, Option.some.injEq] at h
    rw [← h]
  | cons ci rest ih =>
    unfold fillDervs at h
    split at h
    · exact absurd h (by simp)
    · split at h
      · exact absurd h (by simp)
      · dsimp only at h
        have hx := ih _ h (fun hm => hj (List.mem_cons_of_mem ci hm))
        rw [hx]
        exact List.getElem?_set_ne
          (fun hc => hj (by rw [← hc]; exact List.mem_cons_self ci rest))

/-- The relink succeeds (no `ff_ERROR` abort, no NULL-equation dereference)
whenever every live constraint carries a supported non-NULL equation. -/
theorem tryRelink_total (s : ff_Sketch)
    (hsupp : ∀ sl ∈ s.constraints.slots, sl.alive = true →
        ∃ e, sl.payload.cdef.eq = some e ∧ SupportedExpr e = true) :
    ∃ s', ffSketch_tryRelink s = some s' := by
  unfold ffSketch_tryRelink
  by_cases hl : s.link_outdated = true
  · rw [if_neg (by simp [hl])]
    dsimp only
    have hcis : ∀ ci ∈ consLiveWalk (ffSketch_FreeToBaseState s).constraints.slots 0,
        ∃ sl e, (ffSketch_FreeToBaseState s).constraints.slots[ci]? = some sl ∧
          sl.payload.cdef.eq = some e ∧ SupportedExpr e = true := by
      intro ci hci
      obtain ⟨j, sl, hj, hsl, hal⟩ := consLiveWalk_mem _ _ _ hci
      have hj0 : ci = j := by omega
      subst hj0
      have hmap : (ffSketch_FreeToBaseState s).constraints.slots[ci]? =
          (s.constraints.slots[ci]?).map (fun sl =>
            if sl.alive then
              { sl with payload := { sl.payload with dervs := [], dervs_y := [] } }
            else sl) := by
        unfold ffSketch_FreeToBaseState
        dsimp only
        exact List.getElem?_map _ _ ci
      rw [hmap] at hsl
      cases hsl0 : s.constraints.slots[ci]? with
      | none => rw [hsl0] at hsl; simp at hsl
      | some sl0 =>
        rw [hsl0] at hsl
        simp only [Option.map_some', Option.some.injEq] at hsl
        subst hsl
        have hal0 : sl0.alive = true := by
          by_cases ha : sl0.alive = true
          · exact ha
          · rw [if_neg ha] at hal; exact absurd hal ha
        obtain ⟨e, heq, hse⟩ := hsupp sl0 (List.getElem?_mem hsl0) hal0
        have hget : (ffSketch_FreeToBaseState s).constraints.slots[ci]? =
            some { gen := sl0.gen
                   next_free := sl0.next_free
                   alive := sl0.alive
                   payload := { cdef := sl0.payload.cdef
                                err := sl0.payload.err
                                dervs := []
                                dervs_y := [] } } := by
          rw [hmap, hsl0]
          simp [hal0]
        exact ⟨_, e, hget, heq, hse⟩
    obtain ⟨ct', hct⟩ := fillDervs_total
      (paramHandleWalk (ffSketch_FreeToBaseState s).params.slots 0 0
        (ffSketch_FreeToBaseState s).params.alive_count)
      (consLiveWalk (ffSketch_FreeToBaseState s).constraints.slots 0)
      (ffSketch_FreeToBaseState s).constraints hcis
    rw [hct]
    exact ⟨_, rfl⟩
  · simp only [Bool.not_eq_true] at hl
    rw [if_pos (by rw [hl]; rfl)]
    exact ⟨s, rfl⟩

/-- What `ffSketch_tryRelink` produces on an outdated sketch: parameters
untouched, flag cleared, `tmp_contraints` is the live-constraint walk of the
(unchanged) constraint slots, and every slot keeps its `alive` flag and
definition. -/
theorem tryRelink_spec (s s' : ff_Sketch) (hl : s.link_outdated = true)
    (h : ffSketch_tryRelink s = some s') :
    s'.params = s.params ∧
    s'.link_outdated = false ∧
    s'.tmp_contraints = consLiveWalk s.constraints.slots 0 ∧
    s'.constraints.slots.length = s.constraints.slots.length ∧
    (∀ (j : ℕ) (sl' : ff_slot ff_Constraint), s'.constraints.slots[j]? = some sl' →
      ∃ sl, s.constraints.slots[j]? = some sl ∧ sl'.alive = sl.alive ∧
        sl'.payload.cdef = sl.payload.cdef) := by
  unfold ffSketch_tryRelink at h
  rw [if_neg (by simp [hl])] at h
  dsimp only at h
  split at h
  · exact absurd h (by simp)
  · rename_i ctab hfd
    simp only [Option.some.injEq] at h
    subst h
    refine ⟨rfl, rfl, ?_, ?_, ?_⟩
    · show consLiveWalk (ffSketch_FreeToBaseState s).constraints.slots 0 = _
      unfold ffSketch_FreeToBaseState
      dsimp only
      exact consLiveWalk_map _
        (fun sl => by by_cases ha : sl.alive = true <;> simp [ha]) _ 0
    · have h1 := fillDervs_length _ _ _ _ hfd
      simpa [ffSketch_FreeToBaseState] using h1
    · intro j sl' hj
      obtain ⟨slm, hm1, hm2, -, hm4, -⟩ := fillDervs_slots_pointwise _ _ _ _ hfd j sl' hj
      have hmap : (ffSketch_FreeToBaseState s).constraints.slots[j]? =
          (s.constraints.slots[j]?).map (fun sl =>
            if sl.alive then
              { sl with payload := { sl.payload with dervs := [], dervs_y := [] } }
            else sl) := by
        unfold ffSketch_FreeToBaseState
        dsimp only
        exact List.getElem?_map _ _ j
      rw [hmap] at hm1
      cases hsl : s.constraints.slots[j]? with
      | none => rw [hsl] at hm1; simp at hm1
      | some sl =>
        rw [hsl] at hm1
        simp only [Option.map_some', Option.some.injEq] at hm1
        subst hm1
        refine ⟨sl, rfl, ?_, ?_⟩
        · rw [hm2]
          by_cases ha : sl.alive = true <;> simp [ha]
        · rw [hm4]
          by_cases ha : sl.alive = true <;> simp [ha]

/-- Does this constraint equation currently evaluate (without crashing) to a
residual within tolerance? -/
def residualWithin (ops : MathOps) (τ : ℚ) (t : ff_table ff_Parameter)
    (eq? : Option ff_Expr) : Bool :=
  match eq?.bind (fun e => expr_evaluate ops e t) with
  | none => false
  | some v => |v| ≤ τ

/-- If every working constraint in the range evaluates within tolerance, the
residual loop keeps the converged flag, only writes `err` fields, and touches
no parameter. -/
theorem calcErrGo_all_converged (ops : MathOps) (τ : ℚ) (k : ℕ) :
    ∀ (i : ℕ) (conv : Bool) (s : ff_Sketch),
    (∀ m, m < k → ∃ ci sl v, s.tmp_contraints[i + m]? = some ci ∧
        s.constraints.slots[ci]? = some sl ∧
        (sl.payload.cdef.eq.bind (fun e => expr_evaluate ops e s.params)) = some v ∧
        |v| ≤ τ) →
    ∃ s', calcErrGo ops τ k i conv s = some (conv, s') ∧ s'.params = s.params ∧
      s'.tmp_contraints = s.tmp_contraints := by
  induction k with
  | zero =>
    intro i conv s _
    exact ⟨s, rfl, rfl, rfl⟩
  | succ k ih =>
    intro i conv s hs
    obtain ⟨ci, sl, v, htmp, hsl, hv, hvb⟩ := hs 0 (Nat.succ_pos k)
    rw [Nat.add_zero] at htmp
    have hconv : (conv && !decide (|v| > τ)) = conv := by
      rw [decide_eq_false (not_lt.mpr hvb)]
      simp
    have htrans : ∀ m, m < k → ∃ ci' sl' v',
        s.tmp_contraints[(i + 1) + m]? = some ci' ∧
        (s.constraints.slots.set ci
          { sl with payload := { sl.payload with err := v } })[ci']? = some sl' ∧
        (sl'.payload.cdef.eq.bind (fun e => expr_evaluate ops e s.params)) = some v' ∧
        |v'| ≤ τ := by
      intro m hm
      obtain ⟨ci', sl', v', h1, h2, h3, h4⟩ := hs (m + 1) (by omega)
      rw [show i + (m + 1) = i + 1 + m by omega] at h1
      by_cases hcc : ci' = ci
      · subst hcc
        have hss : sl = sl' := by
          rw [hsl] at h2
          exact Option.some_inj.mp h2
        subst hss
        have hlt : ci' < s.constraints.slots.length := (List.getElem?_eq_some.mp hsl).1
        refine ⟨ci', { sl with payload := { sl.payload with err := v } }, v', h1,
          List.getElem?_set_eq_of_lt _ hlt, ?_, h4⟩
        simpa using h3
      · exact ⟨ci', sl', v', h1,
          by rw [List.getElem?_set_ne (fun hq => hcc hq.symm)]; exact h2, h3, h4⟩
    unfold calcErrGo
    rw [htmp]
    dsimp only
    rw [hsl]
    dsimp only
    rw [hv]
    dsimp only
    rw [hconv]
    obtain ⟨s', hrec, hp, ht⟩ := ih (i + 1) conv
      { s with constraints := { s.constraints with
          slots := s.constraints.slots.set ci
            { sl with payload := { sl.payload with err := v } } } } htrans
    exact ⟨s', hrec, hp, ht⟩

/-- One solver iteration on a linked sketch whose residuals are all within
tolerance: the first convergence check fires, `solve` returns `true`, and the
parameter table is untouched. -/
theorem solveLoop_converged_core (ops : MathOps) (τ : ℚ) (m : ℕ) (s₁ : ff_Sketch)
    (htmp : s₁.tmp_contraints = consLiveWalk s₁.constraints.slots 0)
    (hcount : s₁.constraints.alive_count ≤ (consLiveWalk s₁.constraints.slots 0).length)
    (hres : ∀ sl ∈ s₁.constraints.slots, sl.alive = true →
        residualWithin ops τ s₁.params sl.payload.cdef.eq = true) :
    ∃ s₂, solveLoop ops τ (m + 1) s₁ = some (true, s₂) ∧ s₂.params = s₁.params := by
  have hs : ∀ mm, mm < s₁.constraints.alive_count → ∃ ci sl v,
      s₁.tmp_contraints[0 + mm]? = some ci ∧ s₁.constraints.slots[ci]? = some sl ∧
      (sl.payload.cdef.eq.bind (fun e => expr_evaluate ops e s₁.params)) = some v ∧
      |v| ≤ τ := by
    intro mm hmm
    have hlt : mm < (consLiveWalk s₁.constraints.slots 0).length := lt_of_lt_of_le hmm hcount
    obtain ⟨ci, hci⟩ : ∃ ci, (consLiveWalk s₁.constraints.slots 0)[mm]? = some ci :=
      ⟨_, List.getElem?_eq_getElem hlt⟩
    have hmem : ci ∈ consLiveWalk s₁.constraints.slots 0 := List.getElem?_mem hci
    obtain ⟨j, sl, hj, hsl, hal⟩ := consLiveWalk_mem _ _ _ hmem
    have hj0 : ci = j := by omega
    subst hj0
    have hr := hres sl (List.getElem?_mem hsl) hal
    unfold residualWithin at hr
    cases hb : sl.payload.cdef.eq.bind (fun e => expr_evaluate ops e s₁.params) with
    | none => rw [hb] at hr; exact absurd hr (by simp)
    | some v =>
      rw [hb] at hr
      refine ⟨ci, sl, v, ?_, hsl, hb, of_decide_eq_true hr⟩
      rw [Nat.zero_add, htmp]
      exact hci
  obtain ⟨s₂, hcalc, hp, -⟩ :=
    calcErrGo_all_converged ops τ s₁.constraints.alive_count 0 true s₁ hs
  refine ⟨s₂, ?_, hp⟩
  unfold solveLoop ffSketch_calcError
  rw [hcalc]

/-- C3 (amended: `max_steps ≥ 1`): on a sketch with live constraints and
parameters whose residuals are all already within tolerance, `ffSketch_Solve`
returns `true` and mutates no parameter.  The hypotheses ask that the sketch
is in a state the C program can reach: the stored live counter is covered by
the walk, the working array is the live walk whenever the sketch claims to be
linked, and every live equation is non-NULL and supported (otherwise the C
program aborts before reaching the residual check, as §7 of the spec
prescribes). -/
theorem solve_converged_at_entry_no_mutation (ops : MathOps) (s : ff_Sketch) (τ : ℚ)
    (n : ℕ) (_hτ : 0 < τ) (hn : 1 ≤ n)
    (hR : s.constraints.alive_count ≠ 0) (hC : s.params.alive_count ≠ 0)
    (hcount : s.constraints.alive_count ≤ (consLiveWalk s.constraints.slots 0).length)
    (hlink : s.link_outdated = true ∨ s.tmp_contraints = consLiveWalk s.constraints.slots 0)
    (hsupp : ∀ sl ∈ s.constraints.slots, sl.alive = true →
        ∃ e, sl.payload.cdef.eq = some e ∧ SupportedExpr e = true)
    (hres : ∀ sl ∈ s.constraints.slots, sl.alive = true →
        residualWithin ops τ s.params sl.payload.cdef.eq = true) :
    ∃ s', ffSketch_Solve ops s τ n = some (true, s') ∧ s'.params = s.params := by
  obtain ⟨m, rfl⟩ : ∃ m, n = m + 1 := ⟨n - 1, by omega⟩
  by_cases hl : s.link_outdated = true
  · obtain ⟨s₁, hr⟩ := tryRelink_total s hsupp
    obtain ⟨hp, hlo, htmp, hlen, hpw⟩ := tryRelink_spec s s₁ hl hr
    have hac := tryRelink_alive_counts s s₁ hr
    have hwalks : consLiveWalk s₁.constraints.slots 0 = consLiveWalk s.constraints.slots 0 := by
      apply consLiveWalk_eq_of_alive_map
      apply List.ext_getElem?
      intro n0
      rw [List.getElem?_map, List.getElem?_map]
      cases hj : s₁.constraints.slots[n0]? with
      | none =>
        have hn0 : s.constraints.slots.length ≤ n0 := by
          rw [← hlen]
          exact List.getElem?_eq_none_iff.mp hj
        rw [List.getElem?_eq_none hn0]
      | some sl' =>
        obtain ⟨sl, hsl, hal2, -⟩ := hpw n0 sl' hj
        rw [hsl]
        simp [hal2]
    have hres₁ : ∀ sl' ∈ s₁.constraints.slots, sl'.alive = true →
        residualWithin ops τ s₁.params sl'.payload.cdef.eq = true := by
      intro sl' hm hal
      obtain ⟨j, hj⟩ := List.mem_iff_getElem?.mp hm
      obtain ⟨sl, hsl, hal2, hcdef⟩ := hpw j sl' hj
      rw [hcdef, hp]
      exact hres sl (List.getElem?_mem hsl) (by rw [← hal2]; exact hal)
    have htmp₁ : s₁.tmp_contraints = consLiveWalk s₁.constraints.slots 0 := by
      rw [htmp, hwalks]
    have hcount₁ : s₁.constraints.alive_count ≤ (consLiveWalk s₁.constraints.slots 0).length := by
      rw [hac.1, hwalks]
      exact hcount
    obtain ⟨s₂, hloop, hp2⟩ := solveLoop_converged_core ops τ m s₁ htmp₁ hcount₁ hres₁
    refine ⟨s₂, ?_, by rw [hp2, hp]⟩
    unfold ffSketch_Solve
    rw [hr]
    dsimp only
    rw [if_neg (by rw [not_or]
                   exact ⟨by rw [hac.1]; exact hR, by rw [hac.2]; exact hC⟩)]
    exact hloop
  · simp only [Bool.not_eq_true] at hl
    have hr : ffSketch_tryRelink s = some s := by
      unfold ffSketch_tryRelink
      rw [if_pos (by rw [hl]; rfl)]
    have htmp : s.tmp_contraints = consLiveWalk s.constraints.slots 0 :=
      hlink.resolve_left (by rw [hl]; exact Bool.false_ne_true)
    obtain ⟨s₂, hloop, hp2⟩ := solveLoop_converged_core ops τ m s htmp hcount hres
    refine ⟨s₂, ?_, hp2⟩
    unfold ffSketch_Solve
    rw [hr]
    dsimp only
    rw [if_neg (by rw [not_or]; exact ⟨hR, hC⟩)]
    exact hloop

/-- Constraint definition `eq = CONST 0` (a residual that is always 0). -/
def c3_cdef : ff_ConstraintDef :=
  { eq := some (ff_Expr.const 0), type := 0, ents := [], pars := [], ent_count := 0, par_count := 0 }

/-- Concrete sketch with one live parameter and one live constraint whose
residual is identically 0. -/
def c3_sketch : ff_Sketch :=
  (ffSketch_AddConstraint (ffSketch_AddParameter (ffSketch_Init 1 1 1) { v := 0 }).1 c3_cdef).1

/-- C3 counterexample: on `c3_sketch` every residual is 0 ≤ τ = 1 and there
is one live constraint and one live parameter, yet with `max_steps = 0` the
step loop never runs and `ffSketch_Solve` returns `false` — the claim's
"every max_steps ≥ 0" fails at `max_steps = 0`.  With `max_steps = 1` the
same call returns `true`. -/
theorem solve_zero_steps_returns_false :
    c3_sketch.constraints.alive_count = 1 ∧
    c3_sketch.params.alive_count = 1 ∧
    (∀ sl ∈ c3_sketch.constraints.slots, sl.alive = true →
      residualWithin dummyOps 1 c3_sketch.params sl.payload.cdef.eq = true) ∧
    (ffSketch_Solve dummyOps c3_sketch 1 0).map Prod.fst = some false ∧
    (ffSketch_Solve dummyOps c3_sketch 1 1).map Prod.fst = some true := by
  decide

/-- Witness for the amended C3 at `c3_sketch`, τ = 1, `max_steps = 1`. -/
theorem solve_converged_at_entry_no_mutation_witness :
    ∃ s', ffSketch_Solve dummyOps c3_sketch 1 1 = some (true, s') ∧
      s'.params = c3_sketch.params :=
  solve_converged_at_entry_no_mutation dummyOps c3_sketch 1 1
    (by decide) (by decide) (by decide) (by decide) (by decide)
    (Or.inl (by decide))
    (by decide)
    (by decide)

/-- The two parameter-table walks of the linker visit the same slots in the
same order with the same break: position `j` of the pointer walk is a live
slot index `pi`, and position `j` of the handle walk is exactly the handle
`{ idx := pi, gen := slot pi's generation }`. -/
theorem paramWalk_align (slots : List (ff_slot ff_Parameter)) :
    ∀ (i p n j pi : ℕ), (paramPtrWalk slots i p n)[j]? = some pi →
      ∃ sl, slots[pi - i]? = some sl ∧ i ≤ pi ∧ sl.alive = true ∧
        (paramHandleWalk slots i p n)[j]? = some ⟨pi, sl.gen⟩ := by
  induction slots with
  | nil =>
    intro i p n j pi h
    simp [paramPtrWalk] at h
  | cons sl rest ih =>
    intro i p n j pi h
    unfold paramPtrWalk at h
    unfold paramHandleWalk
    by_cases ha : sl.alive = true
    · rw [if_pos ha] at h ⊢
      cases j with
      | zero =>
        simp only [List.getElem?_cons_zero, Option.some.injEq] at h
        subst h
        exact ⟨sl, by simp, le_refl _, ha, by simp⟩
      | succ j =>
        simp only [List.getElem?_cons_succ] at h ⊢
        by_cases hbr : p + 1 ≥ n
        · rw [if_pos hbr] at h
          simp at h
        · rw [if_neg hbr] at h ⊢
          obtain ⟨sl', hsl', hle, hal', hhw⟩ := ih (i + 1) (p + 1) n j pi h
          refine ⟨sl', ?_, by omega, hal', hhw⟩
          rw [show pi - i = (pi - (i + 1)) + 1 by omega]
          simpa using hsl'
    · rw [if_neg ha] at h ⊢
      obtain ⟨sl', hsl', hle, hal', hhw⟩ := ih (i + 1) p n j pi h
      refine ⟨sl', ?_, by omega, hal', hhw⟩
      rw [show pi - i = (pi - (i + 1)) + 1 by omega]
      simpa using hsl'

/-- The indices collected by the constraint walk are distinct. -/
theorem consLiveWalk_nodup (slots : List (ff_slot ff_Constraint)) (i : ℕ) :
    (consLiveWalk slots i).Nodup := by
  induction slots generalizing i with
  | nil => simp [consLiveWalk]
  | cons sl rest ih =>
    unfold consLiveWalk
    by_cases ha : sl.alive = true
    · rw [if_pos ha]
      refine List.nodup_cons.mpr ⟨?_, ih (i + 1)⟩
      intro hmem
      obtain ⟨j, sl', hj, -, -⟩ := consLiveWalk_mem rest (i + 1) i hmem
      omega
    · rw [if_neg ha]
      exact ih (i + 1)

/-- Position `j` of a successful `derivForHandles` run is the derivative with
respect to the `j`-th handle. -/
theorem derivForHandles_spec (eq? : Option ff_Expr) (phs : List ff_GeneralHandle)
    (ds : List ff_Expr) (h : derivForHandles eq? phs = some ds) :
    ∀ (j : ℕ) (hh : ff_GeneralHandle), phs[j]? = some hh →
      ds[j]? = eq?.bind (fun e => expr_derivative e hh true) := by
  induction phs generalizing ds with
  | nil =>
    intro j hh hj
    simp at hj
  | cons hh0 rest ih =>
    unfold derivForHandles at h
    split at h
    · exact absurd h (by simp)
    · rename_i d hd
      split at h
      · exact absurd h (by simp)
      · rename_i ds' hds'
        simp only [Option.some.injEq] at h
        subst h
        intro j hh hj
        cases j with
        | zero =>
          simp only [List.getElem?_cons_zero, Option.some.injEq] at hj
          subst hj
          simpa using hd.symm
        | succ j =>
          simp only [List.getElem?_cons_succ] at hj ⊢
          exact ih ds' hds' j hh hj

/-- What `fillDervs` writes into each walked slot: exactly the
`derivForHandles` list for that slot's own equation, plus a zeroed
`dervs_y` of the same length. -/
theorem fillDervs_content (phs : List ff_GeneralHandle) (cis : List ℕ)
    (ct ct' : ff_table ff_Constraint) (h : fillDervs phs cis ct = some ct')
    (hnd : cis.Nodup) :
    ∀ ci ∈ cis, ∃ sl ds, ct.slots[ci]? = some sl ∧
      derivForHandles sl.payload.cdef.eq phs = some ds ∧
      ct'.slots[ci]? = some { sl with payload := { sl.payload with
        dervs := ds
        dervs_y := List.replicate phs.length 0 } } := by
  induction cis generalizing ct with
  | nil =>
    intro ci hci
    simp at hci
  | cons ci0 rest ih =>
    intro ci hci
    unfold fillDervs at h
    split at h
    · exact absurd h (by simp)
    · rename_i sl0 hsl0
      split at h
      · exact absurd h (by simp)
      · rename_i ds0 hds0
        dsimp only at h
        rcases List.mem_cons.mp hci with hc0 | hcr
        · subst hc0
          refine ⟨sl0, ds0, hsl0, hds0, ?_⟩
          have hpres := fillDervs_preserves_other phs rest _ ct' h ci
            (List.nodup_cons.mp hnd).1
          rw [hpres]
          have hlt : ci < ct.slots.length := (List.getElem?_eq_some.mp hsl0).1
          rw [List.getElem?_set_eq_of_lt _ hlt]
        · have hne : ci ≠ ci0 := fun hq => (List.nodup_cons.mp hnd).1 (hq ▸ hcr)
          obtain ⟨sl, ds, hsl, hds, hfin⟩ := ih _ h (List.nodup_cons.mp hnd).2 ci hcr
          rw [List.getElem?_set_ne (fun hq => hne hq.symm)] at hsl
          exact ⟨sl, ds, hsl, hds, hfin⟩

/-- C7: after a relink of an outdated sketch, for every working constraint
(entry of `tmp_contraints`) and every column `j`, the stored derivative tree
`JMR.dervs[j]` is the (protected) derivative of that constraint's own
equation with respect to exactly the handle of the live parameter slot
`tmp_params[j]` — both walks traverse the parameter table in the same index
order with the same break. -/
theorem tryRelink_derivative_columns_match (s s' : ff_Sketch)
    (hl : s.link_outdated = true) (h : ffSketch_tryRelink s = some s') :
    ∀ ci ∈ s'.tmp_contraints, ∃ sl, s'.constraints.slots[ci]? = some sl ∧
      sl.alive = true ∧
      ∀ (j pi : ℕ), s'.tmp_params[j]? = some pi →
        ∃ psl, s'.params.slots[pi]? = some psl ∧ psl.alive = true ∧
          sl.payload.dervs[j]? =
            sl.payload.cdef.eq.bind (fun e => expr_derivative e ⟨pi, psl.gen⟩ true) := by
  unfold ffSketch_tryRelink at h
  rw [if_neg (by simp [hl])] at h
  dsimp only at h
  split at h
  · exact absurd h (by simp)
  · rename_i ctab hfd
    simp only [Option.some.injEq] at h
    subst h
    intro ci hci
    obtain ⟨sl0, ds, hsl0, hds, hfin⟩ :=
      fillDervs_content _ _ _ _ hfd (consLiveWalk_nodup _ 0) ci hci
    obtain ⟨j0, slw, hj0, hslw, halw⟩ := consLiveWalk_mem _ _ _ hci
    have hj0' : ci = j0 := by omega
    subst hj0'
    have hslsl : slw = sl0 := by
      rw [hsl0] at hslw
      exact (Option.some_inj.mp hslw).symm
    refine ⟨_, hfin, by rw [← hslsl] at hsl0 ⊢; exact halw, ?_⟩
    intro j pi hpi
    obtain ⟨psl, hpsl, hle, halp, hhw⟩ := paramWalk_align _ 0 0 _ j pi hpi
    rw [Nat.sub_zero] at hpsl
    refine ⟨psl, hpsl, halp, ?_⟩
    show ds[j]? = sl0.payload.cdef.eq.bind (fun e => expr_derivative e ⟨pi, psl.gen⟩ true)
    exact derivForHandles_spec _ _ _ hds j ⟨pi, psl.gen⟩ hhw

/-- Sketch with two live parameters (values 1, 2) and one live constraint
whose equation is `PARAM ⟨0,1⟩`, still awaiting its first relink. -/
def c7_sketch : ff_Sketch :=
  (ffSketch_AddConstraint
    (ffSketch_AddParameter
      (ffSketch_AddParameter (ffSketch_Init 2 1 1) { v := 1 }).1 { v := 2 }).1
    { eq := some (ff_Expr.param ⟨0, 1⟩), type := 0, ents := [], pars := [],
      ent_count := 0, par_count := 0 }).1

/-- The C7 sketch after its relink. -/
def c7_relinked : ff_Sketch :=
  match ffSketch_tryRelink c7_sketch with
  | some s => s
  | none => c7_sketch

/-- Witness for C7: the concrete relinked sketch, at working-constraint
index 0. -/
theorem tryRelink_derivative_columns_match_witness :
    ∃ sl, c7_relinked.constraints.slots[0]? = some sl ∧ sl.alive = true ∧
      ∀ (j pi : ℕ), c7_relinked.tmp_params[j]? = some pi →
        ∃ psl, c7_relinked.params.slots[pi]? = some psl ∧ psl.alive = true ∧
          sl.payload.dervs[j]? =
            sl.payload.cdef.eq.bind (fun e => expr_derivative e ⟨pi, psl.gen⟩ true) :=
  tryRelink_derivative_columns_match c7_sketch c7_relinked (by decide) (by rfl)
    0 (by decide)

/-- A table operation: the two mutating entry points of the generational
table. -/
inductive TOp (α : Type) where
  | create (p : α)
  | destroy (h : ff_GeneralHandle)
  deriving DecidableEq

/-- Is this operation a destroy? -/
def TOp.isDestroy {α : Type} : TOp α → Bool
  | .destroy _ => true
  | .create _ => false

/-- Apply one operation (dropping the returned handle/boolean). -/
def applyOp {α : Type} (dflt : α) (t : ff_table α) : TOp α → ff_table α
  | .create p => (ffTBL_create dflt t p).1
  | .destroy h => (ffTBL_destroy t h).1

/-- Apply a sequence of operations left to right. -/
def applyOps {α : Type} (dflt : α) (t : ff_table α) : List (TOp α) → ff_table α
  | [] => t
  | op :: rest => applyOps dflt (applyOp dflt t op) rest

/-- Number of destroy operations in a sequence. -/
def destroyCount {α : Type} (ops : List (TOp α)) : ℕ :=
  (ops.filter TOp.isDestroy).length

/-- Consistency of the stored capacity field with the allocated slot count
(true in every state the C code constructs). -/
def tableWF {α : Type} (t : ff_table α) : Prop := t.cap = t.slots.length

/-- `ffTBL__grow` never lowers the capacity field. -/
theorem ffTBL_grow_cap_le {α : Type} (dflt : α) (t : ff_table α) (add : ℕ) :
    t.cap ≤ (ffTBL_grow dflt t add).cap := by
  unfold ffTBL_grow
  dsimp only
  split_ifs <;> first | omega | (dsimp only; omega)

/-- `ffTBL__grow` only appends slots: existing entries are untouched. -/
theorem ffTBL_grow_getElem {α : Type} (dflt : α) (t : ff_table α) (add i : ℕ)
    (hi : i < t.slots.length) :
    (ffTBL_grow dflt t add).slots[i]? = t.slots[i]? := by
  unfold ffTBL_grow
  dsimp only
  split_ifs <;> first | rfl | (dsimp only; exact List.getElem?_append_left hi)

/-- `ffTBL__grow` keeps the capacity field synchronised with the slot
count. -/
theorem ffTBL_grow_WF {α : Type} (dflt : α) (t : ff_table α) (add : ℕ)
    (hwf : tableWF t) : tableWF (ffTBL_grow dflt t add) := by
  unfold tableWF at hwf ⊢
  unfold ffTBL_grow
  dsimp only
  split_ifs with h1 h2 <;> first
  | exact hwf
  | (dsimp only; simp only [List.length_append, List.length_map, List.length_range]; omega)

/-- `ffTBL_create` keeps the capacity field synchronised. -/
theorem ffTBL_create_WF {α : Type} (dflt : α) (t : ff_table α) (p : α)
    (hwf : tableWF t) : tableWF (ffTBL_create dflt t p).1 := by
  unfold ffTBL_create
  dsimp only
  have hg : tableWF (if t.free_head = FF_INVALID_INDEX then
      ffTBL_grow dflt t (if (if t.cap < 64 then 64 else t.cap / 2) = 0 then 64
        else if t.cap < 64 then 64 else t.cap / 2) else t) := by
    split_ifs <;> first | exact hwf | exact ffTBL_grow_WF dflt t _ hwf
  generalize (if t.free_head = FF_INVALID_INDEX then
      ffTBL_grow dflt t (if (if t.cap < 64 then 64 else t.cap / 2) = 0 then 64
        else if t.cap < 64 then 64 else t.cap / 2) else t) = t' at hg ⊢
  unfold ffTBL_create_pop
  split
  · exact hg
  · split
    · exact hg
    · unfold tableWF at hg ⊢
      simpa using hg

/-- `ffTBL_destroy` keeps the capacity field synchronised. -/
theorem ffTBL_destroy_WF {α : Type} (t : ff_table α) (h : ff_GeneralHandle)
    (hwf : tableWF t) : tableWF (ffTBL_destroy t h).1 := by
  unfold ffTBL_destroy
  split
  · exact hwf
  · split
    · exact hwf
    · unfold tableWF at hwf ⊢
      simpa using hwf


/-- The handle currently matches a live slot (the unfolding of
`ffTBL_alive`). -/
def liveAt {α : Type} (t : ff_table α) (h : ff_GeneralHandle) : Prop :=
  h.idx ≠ FF_INVALID_INDEX ∧ h.idx < t.cap ∧
  ∃ sl, t.slots[h.idx]? = some sl ∧ sl.alive = true ∧ sl.gen = h.gen

/-- `ffTBL_alive` decides `liveAt`. -/
theorem ffTBL_alive_iff_liveAt {α : Type} (t : ff_table α) (h : ff_GeneralHandle) :
    ffTBL_alive t h = true ↔ liveAt t h := by
  unfold ffTBL_alive ffTBL_valid liveAt
  cases hsl : t.slots[h.idx]? with
  | none =>
    constructor
    · intro ha
      split at ha
      · exact absurd ha (by simp)
      · exact absurd ha (by simp)
    · rintro ⟨-, -, sl, hc, -⟩
      exact absurd hc (by simp)
  | some sl =>
    constructor
    · intro ha
      split at ha
      · exact absurd ha (by simp)
      · rename_i hv
        simp only [Bool.not_eq_true', Bool.not_eq_false, Bool.and_eq_true, bne_iff_ne,
          decide_eq_true_eq] at hv
        simp only [Bool.and_eq_true, beq_iff_eq] at ha
        exact ⟨hv.1, hv.2, sl, rfl, ha.1, ha.2⟩
    · rintro ⟨h1, h2, sl', hsl', hal, hgen⟩
      simp only [Option.some.injEq] at hsl'
      subst hsl'
      rw [if_neg (by simp [h1, h2])]
      simp [hal, hgen]

/-- The pop half of `create` never kills a live handle: it sets
`alive := true` on the popped slot and keeps its generation. -/
theorem liveAt_create_pop {α : Type} (t : ff_table α) (p : α)
    (h : ff_GeneralHandle) (hl : liveAt t h) : liveAt (ffTBL_create_pop t p).1 h := by
  obtain ⟨h1, h2, sl, hsl, hal, hgen⟩ := hl
  unfold ffTBL_create_pop
  by_cases hf : t.free_head = FF_INVALID_INDEX
  · rw [if_pos hf]
    exact ⟨h1, h2, sl, hsl, hal, hgen⟩
  · rw [if_neg hf]
    cases hs : t.slots[t.free_head]? with
    | none => exact ⟨h1, h2, sl, hsl, hal, hgen⟩
    | some s =>
      dsimp only
      by_cases hfi : t.free_head = h.idx
      · have hss : s = sl := by
          rw [hfi, hsl] at hs
          exact (Option.some_inj.mp hs).symm
        subst hss
        refine ⟨h1, h2, { s with alive := true, payload := p }, ?_, rfl, hgen⟩
        rw [hfi]
        exact List.getElem?_set_eq_of_lt _ (List.getElem?_eq_some.mp hsl).1
      · refine ⟨h1, h2, sl, ?_, hal, hgen⟩
        rw [List.getElem?_set_ne hfi]
        exact hsl

/-- Creating another entry never kills a live handle. -/
theorem liveAt_create {α : Type} (dflt : α) (t : ff_table α) (p : α)
    (h : ff_GeneralHandle) (hl : liveAt t h) : liveAt (ffTBL_create dflt t p).1 h := by
  obtain ⟨h1, h2, sl, hsl, hal, hgen⟩ := hl
  have hlen : h.idx < t.slots.length := (List.getElem?_eq_some.mp hsl).1
  unfold ffTBL_create
  dsimp only
  by_cases hf0 : t.free_head = FF_INVALID_INDEX
  · rw [if_pos hf0]
    have hcap' := ffTBL_grow_cap_le dflt t
      (if (if t.cap < 64 then 64 else t.cap / 2) = 0 then 64
        else if t.cap < 64 then 64 else t.cap / 2)
    have hsl' := ffTBL_grow_getElem dflt t
      (if (if t.cap < 64 then 64 else t.cap / 2) = 0 then 64
        else if t.cap < 64 then 64 else t.cap / 2)
      h.idx hlen
    rw [hsl] at hsl'
    exact liveAt_create_pop _ p h ⟨h1, by omega, sl, hsl', hal, hgen⟩
  · rw [if_neg hf0]
    exact liveAt_create_pop t p h ⟨h1, h2, sl, hsl, hal, hgen⟩

/-- Destroying a DIFFERENT handle never kills a live handle: a successful
destroy requires a generation match, which pins the destroyed handle to a
different slot index. -/
theorem liveAt_destroy {α : Type} (t : ff_table α) (h h' : ff_GeneralHandle)
    (hne : h' ≠ h) (hl : liveAt t h) : liveAt (ffTBL_destroy t h').1 h := by
  obtain ⟨h1, h2, sl, hsl, hal, hgen⟩ := hl
  unfold ffTBL_destroy
  by_cases ha : ffTBL_alive t h' = true
  · rw [if_neg (by simp [ha])]
    obtain ⟨h1', h2', sl', hsl', hal', hgen'⟩ := (ffTBL_alive_iff_liveAt t h').mp ha
    rw [hsl']
    dsimp only
    by_cases hii : h'.idx = h.idx
    · exfalso
      rw [hii, hsl] at hsl'
      have hss : sl = sl' := Option.some_inj.mp hsl'
      apply hne
      have : h'.gen = h.gen := by rw [← hgen', ← hss, hgen]
      cases h
      cases h'
      simp_all
    · refine ⟨h1, h2, sl, ?_, hal, hgen⟩
      rw [List.getElem?_set_ne hii]
      exact hsl
  · rw [if_pos (by simp [Bool.not_eq_true] at ha ⊢; exact ha)]
    exact ⟨h1, h2, sl, hsl, hal, hgen⟩

/-- A live handle stays live across any sequence of operations that never
destroys it. -/
theorem liveAt_applyOps {α : Type} (dflt : α) (h : ff_GeneralHandle) :
    ∀ (ops : List (TOp α)) (t : ff_table α),
      (∀ op ∈ ops, op ≠ TOp.destroy h) → liveAt t h → liveAt (applyOps dflt t ops) h := by
  intro ops
  induction ops with
  | nil => intro t _ hl; exact hl
  | cons op rest ih =>
    intro t hops hl
    unfold applyOps
    apply ih _ (fun o ho => hops o (List.mem_cons_of_mem _ ho))
    cases op with
    | create p => exact liveAt_create dflt t p h hl
    | destroy h' =>
      refine liveAt_destroy t h h' ?_ hl
      intro he
      exact (hops _ (List.mem_cons_self _ _)) (by rw [he])

/-- A successful pop returns a handle that is live in the updated table. -/
theorem create_pop_returns_live {α : Type} (t : ff_table α) (p : α) (hwf : tableWF t)
    (hsucc : (ffTBL_create_pop t p).2.idx ≠ FF_INVALID_INDEX) :
    liveAt (ffTBL_create_pop t p).1 (ffTBL_create_pop t p).2 := by
  unfold ffTBL_create_pop at hsucc ⊢
  by_cases hf : t.free_head = FF_INVALID_INDEX
  · rw [if_pos hf] at hsucc
    exact absurd rfl hsucc
  · rw [if_neg hf] at hsucc ⊢
    cases hs : t.slots[t.free_head]? with
    | none =>
      rw [hs] at hsucc
      exact absurd rfl hsucc
    | some s =>
      rw [hs] at hsucc
      dsimp only at hsucc ⊢
      have hlt : t.free_head < t.slots.length := (List.getElem?_eq_some.mp hs).1
      unfold tableWF at hwf
      refine ⟨hsucc, show t.free_head < t.cap by omega,
        { s with alive := true, payload := p }, ?_, rfl, rfl⟩
      exact List.getElem?_set_eq_of_lt _ hlt

/-- A successful `create` returns a handle that is live in the updated
table. -/
theorem create_returns_live {α : Type} (dflt : α) (t : ff_table α) (p : α)
    (hwf : tableWF t) (hsucc : (ffTBL_create dflt t p).2.idx ≠ FF_INVALID_INDEX) :
    liveAt (ffTBL_create dflt t p).1 (ffTBL_create dflt t p).2 := by
  unfold ffTBL_create at hsucc ⊢
  dsimp only at hsucc ⊢
  by_cases hf0 : t.free_head = FF_INVALID_INDEX
  · rw [if_pos hf0] at hsucc ⊢
    exact create_pop_returns_live _ p (ffTBL_grow_WF dflt t _ hwf) hsucc
  · rw [if_neg hf0] at hsucc ⊢
    exact create_pop_returns_live t p hwf hsucc

/-- After a destroy of the tracked slot, the slot's generation has advanced
by some `k` with `1 ≤ k ≤ n + 1` (mod 2³²), where `n` bounds the destroys
performed since. -/
def deadSlotInv {α : Type} (h : ff_GeneralHandle) (n : ℕ) (t : ff_table α) : Prop :=
  ∃ sl k, t.slots[h.idx]? = some sl ∧ sl.gen = (h.gen + k) % GEN_MOD ∧ 1 ≤ k ∧ k ≤ n + 1

/-- Destroying a live handle establishes the advanced-generation invariant
with `k = 1`. -/
theorem deadSlotInv_destroy_self {α : Type} (t : ff_table α) (h : ff_GeneralHandle)
    (ha : ffTBL_alive t h = true) :
    deadSlotInv h 0 (ffTBL_destroy t h).1 := by
  obtain ⟨h1, h2, sl, hsl, hal, hgen⟩ := (ffTBL_alive_iff_liveAt t h).mp ha
  unfold ffTBL_destroy
  rw [if_neg (by simp [ha]), hsl]
  dsimp only
  refine ⟨_, 1, List.getElem?_set_eq_of_lt _ (List.getElem?_eq_some.mp hsl).1, ?_, le_refl 1, by omega⟩
  rw [hgen]

/-- The invariant survives a `create`: popping only sets `alive := true` and
copies the payload, never touching the generation, and growth only appends
slots. -/
theorem deadSlotInv_create {α : Type} (dflt : α) (t : ff_table α) (p : α)
    (h : ff_GeneralHandle) (n : ℕ) (hd : deadSlotInv h n t) :
    deadSlotInv h n (ffTBL_create dflt t p).1 := by
  obtain ⟨sl, k, hsl, hgen, hk1, hk2⟩ := hd
  have hlen : h.idx < t.slots.length := (List.getElem?_eq_some.mp hsl).1
  have hpop : ∀ (t' : ff_table α), t'.slots[h.idx]? = some sl →
      deadSlotInv h n (ffTBL_create_pop t' p).1 := by
    intro t' hsl'
    unfold ffTBL_create_pop
    by_cases hf : t'.free_head = FF_INVALID_INDEX
    · rw [if_pos hf]
      exact ⟨sl, k, hsl', hgen, hk1, hk2⟩
    · rw [if_neg hf]
      cases hs : t'.slots[t'.free_head]? with
      | none => exact ⟨sl, k, hsl', hgen, hk1, hk2⟩
      | some s =>
        dsimp only
        by_cases hfi : t'.free_head = h.idx
        · have hss : s = sl := by
            rw [hfi, hsl'] at hs
            exact (Option.some_inj.mp hs).symm
          subst hss
          refine ⟨{ s with alive := true, payload := p }, k, ?_, hgen, hk1, hk2⟩
          rw [hfi]
          exact List.getElem?_set_eq_of_lt _ (List.getElem?_eq_some.mp hsl').1
        · refine ⟨sl, k, ?_, hgen, hk1, hk2⟩
          rw [List.getElem?_set_ne hfi]
          exact hsl'
  unfold ffTBL_create
  dsimp only
  by_cases hf0 : t.free_head = FF_INVALID_INDEX
  · rw [if_pos hf0]
    refine hpop _ ?_
    rw [ffTBL_grow_getElem dflt t _ h.idx hlen]
    exact hsl
  · rw [if_neg hf0]
    exact hpop t hsl

/-- The invariant survives a `destroy` with the budget increased by one:
either the destroy misses the tracked slot, or it bumps its generation by
exactly one more step (mod 2³²). -/
theorem deadSlotInv_destroy {α : Type} (t : ff_table α) (h h' : ff_GeneralHandle)
    (n : ℕ) (hd : deadSlotInv h n t) : deadSlotInv h (n + 1) (ffTBL_destroy t h').1 := by
  obtain ⟨sl, k, hsl, hgen, hk1, hk2⟩ := hd
  unfold ffTBL_destroy
  by_cases ha : ffTBL_alive t h' = true
  · rw [if_neg (by simp [ha])]
    obtain ⟨h1', h2', sl', hsl', hal', hgen'⟩ := (ffTBL_alive_iff_liveAt t h').mp ha
    rw [hsl']
    dsimp only
    by_cases hii : h'.idx = h.idx
    · have hss : sl' = sl := by
        rw [hii, hsl] at hsl'
        exact (Option.some_inj.mp hsl').symm
      subst hss
      refine ⟨{ sl' with alive := false, gen := (sl'.gen + 1) % GEN_MOD, next_free := t.free_head }, k + 1, ?_, ?_, by omega, by omega⟩
      · dsimp only
        rw [hii]
        exact List.getElem?_set_eq_of_lt _
          (by rw [← hii]; exact (List.getElem?_eq_some.mp hsl').1)
      · show (sl'.gen + 1) % GEN_MOD = (h.gen + (k + 1)) % GEN_MOD
        rw [hgen, Nat.mod_add_mod, Nat.add_assoc]
    · refine ⟨sl, k, ?_, hgen, hk1, by omega⟩
      rw [List.getElem?_set_ne hii]
      exact hsl
  · rw [if_pos (by simp [Bool.not_eq_true] at ha ⊢; exact ha)]
    exact ⟨sl, k, hsl, hgen, hk1, by omega⟩

/-- The invariant survives any operation sequence, with the budget advanced
by the number of destroys in it. -/
theorem deadSlotInv_applyOps {α : Type} (dflt : α) (h : ff_GeneralHandle) :
    ∀ (ops : List (TOp α)) (t : ff_table α) (n : ℕ), deadSlotInv h n t →
      deadSlotInv h (n + destroyCount ops) (applyOps dflt t ops) := by
  intro ops
  induction ops with
  | nil =>
    intro t n hd
    simpa [destroyCount, applyOps] using hd
  | cons op rest ih =>
    intro t n hd
    unfold applyOps
    cases op with
    | create p =>
      have hx := ih _ n (deadSlotInv_create dflt t p h n hd)
      have hc : destroyCount (TOp.create p :: rest) = destroyCount rest := by
        simp [destroyCount, List.filter, TOp.isDestroy]
      rw [hc]
      exact hx
    | destroy h' =>
      have hx := ih _ (n + 1) (deadSlotInv_destroy t h h' n hd)
      have hc : destroyCount (TOp.destroy h' :: rest) = destroyCount rest + 1 := by
        simp [destroyCount, List.filter, TOp.isDestroy]
      rw [hc, show n + (destroyCount rest + 1) = n + 1 + destroyCount rest by omega]
      exact hx

/-- A slot whose generation differs from the handle's makes the handle dead
for `ffTBL_alive`. -/
theorem alive_false_of_gen_ne {α : Type} (t : ff_table α) (h : ff_GeneralHandle)
    (sl : ff_slot α) (hsl : t.slots[h.idx]? = some sl) (hne : sl.gen ≠ h.gen) :
    ffTBL_alive t h = false := by
  unfold ffTBL_alive
  split
  · rfl
  · rw [hsl]
    simp [hne]

/-- Extract the generation-mismatch fact from the invariant while the
destroy budget is below the 2³² wraparound. -/
theorem deadSlotInv_gen_ne {α : Type} (t : ff_table α) (h : ff_GeneralHandle) (n : ℕ)
    (hg : h.gen < GEN_MOD) (hn : n + 1 < GEN_MOD) (hd : deadSlotInv h n t) :
    ∃ sl, t.slots[h.idx]? = some sl ∧ sl.gen ≠ h.gen := by
  obtain ⟨sl, k, hsl, hgen, hk1, hk2⟩ := hd
  refine ⟨sl, hsl, ?_⟩
  rw [hgen]
  intro hq
  have hmod : (h.gen + k) % GEN_MOD = h.gen % GEN_MOD := by
    rw [hq, Nat.mod_eq_of_lt hg]
  have hme : Nat.ModEq GEN_MOD h.gen (h.gen + k) := hmod.symm
  have hdvd : GEN_MOD ∣ k := by
    have hx := (Nat.modEq_iff_dvd' (Nat.le_add_right h.gen k)).mp hme
    simpa using hx
  have hk : GEN_MOD ≤ k := Nat.le_of_dvd (by omega) hdvd
  omega

/-- A dead handle's lookup returns NULL. -/
theorem get_none_of_alive_false {α : Type} (t : ff_table α) (h : ff_GeneralHandle)
    (ha : ffTBL_alive t h = false) : ffTBL_get t h = none := by
  unfold ffTBL_get
  rw [ha]
  rfl

/-- A dead handle's destroy returns false. -/
theorem destroy_false_of_alive_false {α : Type} (t : ff_table α) (h : ff_GeneralHandle)
    (ha : ffTBL_alive t h = false) : (ffTBL_destroy t h).2 = false := by
  unfold ffTBL_destroy
  rw [ha]
  rfl

/-- If the popped slot's generation differs from `h.gen`, a handle returned
for slot `h.idx` carries a different generation than `h`. -/
theorem create_pop_gen_ne {α : Type} (t : ff_table α) (p : α) (h : ff_GeneralHandle)
    (sl : ff_slot α) (hsl : t.slots[h.idx]? = some sl) (hne : sl.gen ≠ h.gen)
    (hinv : h.idx ≠ FF_INVALID_INDEX)
    (hidx : (ffTBL_create_pop t p).2.idx = h.idx) :
    (ffTBL_create_pop t p).2.gen ≠ h.gen := by
  unfold ffTBL_create_pop at hidx ⊢
  by_cases hf : t.free_head = FF_INVALID_INDEX
  · rw [if_pos hf] at hidx
    exact absurd hidx.symm hinv
  · rw [if_neg hf] at hidx ⊢
    cases hs : t.slots[t.free_head]? with
    | none =>
      rw [hs] at hidx
      exact absurd hidx.symm hinv
    | some s =>
      rw [hs] at hidx
      dsimp only at hidx ⊢
      rw [hidx, hsl] at hs
      have hss : sl = s := Option.some_inj.mp hs
      show s.gen ≠ h.gen
      rw [← hss]
      exact hne

/-- Same statement through the growing `create`. -/
theorem create_gen_ne {α : Type} (dflt : α) (t : ff_table α) (p : α)
    (h : ff_GeneralHandle) (sl : ff_slot α) (hsl : t.slots[h.idx]? = some sl)
    (hne : sl.gen ≠ h.gen) (hinv : h.idx ≠ FF_INVALID_INDEX)
    (hidx : (ffTBL_create dflt t p).2.idx = h.idx) :
    (ffTBL_create dflt t p).2.gen ≠ h.gen := by
  unfold ffTBL_create at hidx ⊢
  dsimp only at hidx ⊢
  by_cases hf0 : t.free_head = FF_INVALID_INDEX
  · rw [if_pos hf0] at hidx ⊢
    have hsl' := ffTBL_grow_getElem dflt t
      (if (if t.cap < 64 then 64 else t.cap / 2) = 0 then 64
        else if t.cap < 64 then 64 else t.cap / 2)
      h.idx (List.getElem?_eq_some.mp hsl).1
    rw [hsl] at hsl'
    exact create_pop_gen_ne _ p h sl hsl' hne hinv hidx
  · rw [if_neg hf0] at hidx ⊢
    exact create_pop_gen_ne t p h sl hsl hne hinv hidx

/-- C5 (amended with the 2³² destroy budget): a handle returned by a
successful `create` is alive and stays alive under any operations that never
destroy it; after `destroy(h)`, under any subsequent operation sequence
performing fewer than 2³² − 1 destroys, `alive(h)` is false, `get(h)` is
NULL, `destroy(h)` returns false, and a handle later returned for the same
slot index carries a different generation.  (Without the budget the claim is
false: the `uint32_t` generation counter wraps, see the counterexample.) -/
theorem gentable_handle_lifecycle {α : Type} (dflt : α) :
    (∀ (t : ff_table α) (p : α), tableWF t →
      (ffTBL_create dflt t p).2.idx ≠ FF_INVALID_INDEX →
      ffTBL_alive (ffTBL_create dflt t p).1 (ffTBL_create dflt t p).2 = true ∧
      ∀ ops : List (TOp α), (∀ op ∈ ops, op ≠ TOp.destroy (ffTBL_create dflt t p).2) →
        ffTBL_alive (applyOps dflt (ffTBL_create dflt t p).1 ops)
          (ffTBL_create dflt t p).2 = true) ∧
    (∀ (t : ff_table α) (h : ff_GeneralHandle), h.gen < GEN_MOD →
      ffTBL_alive t h = true →
      ∀ ops : List (TOp α), destroyCount ops + 1 < GEN_MOD →
        ffTBL_alive (applyOps dflt (ffTBL_destroy t h).1 ops) h = false ∧
        ffTBL_get (applyOps dflt (ffTBL_destroy t h).1 ops) h = none ∧
        (ffTBL_destroy (applyOps dflt (ffTBL_destroy t h).1 ops) h).2 = false ∧
        ∀ p : α, (ffTBL_create dflt (applyOps dflt (ffTBL_destroy t h).1 ops) p).2.idx = h.idx →
          (ffTBL_create dflt (applyOps dflt (ffTBL_destroy t h).1 ops) p).2.gen ≠ h.gen) := by
  constructor
  · intro t p hwf hsucc
    have hlive := create_returns_live dflt t p hwf hsucc
    refine ⟨(ffTBL_alive_iff_liveAt _ _).mpr hlive, ?_⟩
    intro ops hops
    exact (ffTBL_alive_iff_liveAt _ _).mpr (liveAt_applyOps dflt _ ops _ hops hlive)
  · intro t h hg ha ops hcnt
    have hinv : h.idx ≠ FF_INVALID_INDEX := ((ffTBL_alive_iff_liveAt t h).mp ha).1
    have hd0 := deadSlotInv_destroy_self t h ha
    have hd := deadSlotInv_applyOps dflt h ops ((ffTBL_destroy t h).1) 0 hd0
    obtain ⟨sl, hsl, hne⟩ := deadSlotInv_gen_ne _ h _ hg (by omega) hd
    have hfalse := alive_false_of_gen_ne _ h sl hsl hne
    exact ⟨hfalse, get_none_of_alive_false _ h hfalse,
      destroy_false_of_alive_false _ h hfalse,
      fun p hidx => create_gen_ne dflt _ p h sl hsl hne hinv hidx⟩

def c5_t0 : ff_table ff_Parameter := ffTBL_init ff_Parameter_DEFAULT 1

def c5_h : ff_GeneralHandle := ⟨0, 1⟩

def c5_t1 : ff_table ff_Parameter :=
  (ffTBL_create ff_Parameter_DEFAULT c5_t0 ff_Parameter_DEFAULT).1

def c5_t2 : ff_table ff_Parameter := (ffTBL_destroy c5_t1 c5_h).1

/-- The one-slot table state with the slot dead at generation `g`, free list
holding just that slot. -/
def c5_state (g : ℕ) : ff_table ff_Parameter :=
  { slots := [{ gen := g, next_free := FF_INVALID_INDEX, alive := false
                payload := ff_Parameter_DEFAULT }]
    cap := 1, alive_count := 0, free_head := 0 }

/-- One create immediately followed by destroying the returned handle. -/
def c5_cycle (t : ff_table ff_Parameter) : ff_table ff_Parameter :=
  let r := ffTBL_create ff_Parameter_DEFAULT t ff_Parameter_DEFAULT
  (ffTBL_destroy r.1 r.2).1

theorem c5_cycle_state (g : ℕ) :
    c5_cycle (c5_state g) = c5_state ((g + 1) % GEN_MOD) := by
  unfold c5_cycle c5_state ffTBL_create ffTBL_create_pop ffTBL_destroy
    ffTBL_alive ffTBL_valid
  simp [FF_INVALID_INDEX]

theorem c5_iterate (n g : ℕ) (hg : g < GEN_MOD) :
    c5_cycle^[n] (c5_state g) = c5_state ((g + n) % GEN_MOD) := by
  induction n generalizing g with
  | zero => simp [Nat.mod_eq_of_lt hg]
  | succ n ih =>
    rw [Function.iterate_succ_apply, c5_cycle_state]
    have hg' : (g + 1) % GEN_MOD < GEN_MOD :=
      Nat.mod_lt _ (by unfold GEN_MOD; omega)
    rw [ih _ hg']
    have : ((g + 1) % GEN_MOD + n) % GEN_MOD = (g + (n + 1)) % GEN_MOD := by
      unfold GEN_MOD
      omega
    rw [this]

/-- C5, refuting instance for the unbudgeted wording: destroy a live handle,
then run 2³² − 1 create/destroy cycles on the same slot; the `uint32_t`
generation wraps back to the stale handle's generation, so the next create
returns a handle EQUAL to the stale one and the stale handle is alive
again — `alive`, `get` and `destroy` all treat it as live, contradicting
"never again" without a destroy budget. -/
theorem stale_handle_revived_after_generation_wraparound :
    (ffTBL_destroy c5_t1 c5_h).2 = true ∧
    ffTBL_alive c5_t2 c5_h = false ∧
    (ffTBL_create ff_Parameter_DEFAULT (c5_cycle^[GEN_MOD - 1] c5_t2)
        ff_Parameter_DEFAULT).2 = c5_h ∧
    ffTBL_alive
      (ffTBL_create ff_Parameter_DEFAULT (c5_cycle^[GEN_MOD - 1] c5_t2)
        ff_Parameter_DEFAULT).1 c5_h = true := by
  have h2 : c5_t2 = c5_state 2 := by decide
  have hiter := c5_iterate (GEN_MOD - 1) 2 (by unfold GEN_MOD; omega)
  have hmod : (2 + (GEN_MOD - 1)) % GEN_MOD = 1 := by
    unfold GEN_MOD
    omega
  rw [hmod] at hiter
  refine ⟨by decide, by decide, ?_, ?_⟩
  · rw [h2, hiter]
    decide
  · rw [h2, hiter]
    decide

/-- Witness for the lifecycle theorem at a concrete one-slot table. -/
theorem gentable_handle_lifecycle_witness :
    ffTBL_alive (ffTBL_create ff_Parameter_DEFAULT c5_t0 ff_Parameter_DEFAULT).1
      (ffTBL_create ff_Parameter_DEFAULT c5_t0 ff_Parameter_DEFAULT).2 = true ∧
    ffTBL_alive (applyOps ff_Parameter_DEFAULT (ffTBL_destroy c5_t1 c5_h).1 []) c5_h = false :=
  ⟨((gentable_handle_lifecycle ff_Parameter_DEFAULT).1 c5_t0 ff_Parameter_DEFAULT
      (by unfold tableWF; decide) (by decide)).1,
   ((gentable_handle_lifecycle ff_Parameter_DEFAULT).2 c5_t1 c5_h
      (by decide) (by decide) [] (by decide)).1⟩
